import Mathlib

/-!
Verification development for the CompressionLib codec library: shallow
embeddings of the Huffman entropy coder (Huffman.cpp), the LZSS dictionary
coder (Lzss.cpp) and the DCT transform coder file layout (Dct.cpp), with
theorems settling the specification claims. Bytes are modelled as Nat,
machine integers as Nat with explicit reductions where the source masks or
truncates, and every source loop as fueled structural recursion with fuel
chosen from the loop bound the source guarantees.
-/

namespace CompressionLib

/-- Parameters of the LZSS coder, mirroring struct Params in Lzss.cpp. -/
structure Params where
  windowSize : Nat
  lookahead : Nat
  minMatch : Nat
deriving DecidableEq

/-- The parameter values lzssCompressFile passes: window 4096, lookahead 18,
minimum useful match 3. -/
def lzssParams : Params := ⟨4096, 18, 3⟩

/-- A back-reference, mirroring struct Match in Lzss.cpp; no match is
represented as offset 0, length 0. -/
structure Match where
  offset : Nat
  length : Nat
deriving DecidableEq

/-- The inner while loop of findBestMatch: the length of the common run of
in[j+k] and in[pos+k] for k below the budget maxLen. -/
def matchLen (inp : List Nat) (j pos : Nat) : Nat → Nat
  | 0 => 0
  | m + 1 =>
    if inp.getD j 0 = inp.getD pos 0 then matchLen inp (j + 1) (pos + 1) m + 1 else 0

/-- The candidate scan of findBestMatch over the window, in increasing candidate
order, replacing the best match only on strictly greater length and breaking
once a match reaches maxLen. -/
def findBestGo (inp : List Nat) (pos maxLen : Nat) : List Nat → Match → Match
  | [], best => best
  | j :: js, best =>
    let k := matchLen inp j pos maxLen
    if best.length < k then
      if k = maxLen then ⟨pos - j, k⟩ else findBestGo inp pos maxLen js ⟨pos - j, k⟩
    else findBestGo inp pos maxLen js best

/-- Shallow embedding of findBestMatch (Lzss.cpp): scan candidate starts j in
[windowStart, pos) where windowStart is pos - windowSize clamped at 0, with
match budget lookahead clamped to the remaining length; a best match shorter
than minMatch is discarded. -/
def findBestMatch (inp : List Nat) (pos : Nat) (p : Params) : Match :=
  if pos = 0 then ⟨0, 0⟩
  else
    let windowStart := if p.windowSize < pos then pos - p.windowSize else 0
    let maxLen := if pos + p.lookahead ≤ inp.length then p.lookahead else inp.length - pos
    let best := findBestGo inp pos maxLen (List.range' windowStart (pos - windowStart)) ⟨0, 0⟩
    if best.length < p.minMatch then ⟨0, 0⟩ else best

/-- One token group of lzssCompressBuffer: up to fuel (initially 8) tokens from
position pos; returns the emitted token bytes, the flag byte and the next
position. The flag byte sets bit i for the i-th token of the group when it is a
match, assembled least significant bit first, exactly the value the source
builds with flags |= 1 shifted left by bit. A match token is offset low byte,
offset high byte, length byte. -/
def encodeTokens (inp : List Nat) (p : Params) : Nat → Nat → List Nat × Nat × Nat
  | pos, 0 => ([], 0, pos)
  | pos, fuel + 1 =>
    if pos < inp.length then
      let m := findBestMatch inp pos p
      if 0 < m.length then
        let r := encodeTokens inp p (pos + m.length) fuel
        (m.offset % 256 :: m.offset / 256 % 256 :: m.length % 256 :: r.1, 2 * r.2.1 + 1, r.2.2)
      else
        let r := encodeTokens inp p (pos + 1) fuel
        (inp.getD pos 0 :: r.1, 2 * r.2.1, r.2.2)
    else ([], 0, pos)

/-- The outer group loop of lzssCompressBuffer; each group consumes at least one
input byte, so fuel inp.length suffices. -/
def lzssEncodeLoop (inp : List Nat) (p : Params) : Nat → Nat → List Nat
  | _, 0 => []
  | pos, fuel + 1 =>
    if pos < inp.length then
      let g := encodeTokens inp p pos 8
      g.2.1 :: (g.1 ++ lzssEncodeLoop inp p g.2.2 fuel)
    else []

/-- Shallow embedding of lzssCompressBuffer (Lzss.cpp). -/
def lzssCompressBuffer (inp : List Nat) (p : Params) : List Nat :=
  lzssEncodeLoop inp p 0 inp.length

/-- The overlapped match copy of lzssDecompressBuffer: append length bytes read
one by one from position start of the growing output, so a byte just produced
by this same copy can be read again. -/
def lzssCopy (out : List Nat) (start : Nat) : Nat → List Nat
  | 0 => out
  | len + 1 => lzssCopy (out ++ [out.getD start 0]) (start + 1) len

/-- The inner token loop of lzssDecompressBuffer over the bits of one flag byte,
least significant first (the source reads flags shifted right by bit, and one);
it stops early, successfully, when the input ends, fails on a match record of
fewer than 3 bytes, and fails on a match whose offset is 0, whose length is 0
or whose offset exceeds the bytes decoded so far. -/
def decodeTokens : Nat → Nat → List Nat → List Nat → Option (List Nat × List Nat)
  | _, 0, rest, out => some (out, rest)
  | _, _ + 1, [], out => some (out, [])
  | flags, fuel + 1, b :: rest, out =>
    if flags % 2 = 1 then
      match rest with
      | offHi :: lenB :: rest2 =>
        let off := b + 256 * offHi
        if off = 0 ∨ lenB = 0 ∨ out.length < off then none
        else decodeTokens (flags / 2) fuel rest2 (lzssCopy out (out.length - off) lenB)
      | _ => none
    else decodeTokens (flags / 2) fuel rest (out ++ [b])

/-- The outer flag-group loop of lzssDecompressBuffer; each iteration consumes at
least the flag byte, so fuel equal to the input length suffices. -/
def lzssDecodeLoop : Nat → List Nat → List Nat → Option (List Nat)
  | _, [], out => some out
  | 0, _ :: _, _ => none
  | fuel + 1, flags :: rest, out =>
    match decodeTokens flags 8 rest out with
    | none => none
    | some (out2, rest2) => lzssDecodeLoop fuel rest2 out2

/-- Shallow embedding of lzssDecompressBuffer (Lzss.cpp). -/
def lzssDecompressBuffer (inp : List Nat) : Option (List Nat) :=
  lzssDecodeLoop inp.length inp []

/-- Candidates of the search policy as the spec words it: every start j in the
window from pos minus windowSize, clamped at zero, up to pos, in increasing
order. -/
def lzssCandidates (pos : Nat) (p : Params) : List Nat :=
  List.range' (pos - p.windowSize) (pos - (pos - p.windowSize))

/-- The match budget as the spec words it: byte equality extends up to the
minimum of lookahead and the remaining length. -/
def lzssMaxLen (inp : List Nat) (pos : Nat) (p : Params) : Nat :=
  min p.lookahead (inp.length - pos)

/-- The longest match length any candidate reaches. -/
def lzssBestLen (inp : List Nat) (pos : Nat) (p : Params) : Nat :=
  ((lzssCandidates pos p).map (fun j => matchLen inp j pos (lzssMaxLen inp pos p))).foldr
    max 0

/-- The search policy as the spec words it, for comparison with the source
findBestMatch: the longest match length wins, the first candidate attaining it
supplies the offset (the best is replaced only on strictly greater length), and
a best length below minMatch is reported as no match. -/
def findBestMatchSpec (inp : List Nat) (pos : Nat) (p : Params) : Match :=
  if lzssBestLen inp pos p < p.minMatch then ⟨0, 0⟩
  else
    match (lzssCandidates pos p).find?
        (fun j => matchLen inp j pos (lzssMaxLen inp pos p) = lzssBestLen inp pos p) with
    | some j => ⟨pos - j, lzssBestLen inp pos p⟩
    | none => ⟨0, 0⟩

/-- The candidate scan without the early break at maxLen, used to show the break
does not change the scan result. -/
def findBestScan (inp : List Nat) (pos maxLen : Nat) : List Nat → Match → Match
  | [], best => best
  | j :: js, best =>
    if best.length < matchLen inp j pos maxLen then
      findBestScan inp pos maxLen js ⟨pos - j, matchLen inp j pos maxLen⟩
    else findBestScan inp pos maxLen js best

/-- Huffman tree shape, mirroring struct HuffNode of Huffman.cpp: a leaf holds a
symbol; an internal node built by the merge loop always holds two children. -/
inductive HTree where
  | leaf (sym : Nat)
  | node (l r : HTree)
deriving DecidableEq

/-- Symbols of the leaves of a tree, in traversal order. -/
def treeSyms : HTree → List Nat
  | .leaf s => [s]
  | .node l r => treeSyms l ++ treeSyms r

/-- Ordered insertion into the weight-sorted work list modelling the min-heap of
buildTree (a std priority queue ordered by frequency). The extraction order
among equal weights is implementation-defined in the source; the model places a
new element after existing equal weights, one fixed deterministic choice, and
every claim depends only on encode and decode building the tree with the same
deterministic procedure, which the source guarantees by using one buildTree for
both. -/
def pqInsert (x : HTree × Nat) : List (HTree × Nat) → List (HTree × Nat)
  | [] => [x]
  | y :: ys => if x.2 < y.2 then x :: y :: ys else y :: pqInsert x ys

/-- The merge loop of buildTree: repeatedly remove the two lowest-weight nodes,
lowest first, and insert a parent node carrying their weight sum; an empty
queue yields no tree (the null root of the source) and a singleton queue yields
its node. Fuel bounds the iterations; the queue length suffices. -/
def buildLoop : Nat → List (HTree × Nat) → Option HTree
  | _, [] => none
  | _, [x] => some x.1
  | 0, _ => none
  | fuel + 1, a :: b :: rest => buildLoop fuel (pqInsert (.node a.1 b.1, a.2 + b.2) rest)

/-- Shallow embedding of buildTree (Huffman.cpp): one leaf per entry of the
frequency list, pushed in list order (the source pushes symbols in ascending
order), then merged min-weight first. -/
def buildTree (ws : List (Nat × Nat)) : Option HTree :=
  let q := ws.foldl (fun q sf => pqInsert (HTree.leaf sf.1, sf.2) q) []
  buildLoop q.length q

/-- Shallow embedding of buildCodeTable: each leaf receives its root-to-leaf
path, left false, right true; a leaf whose path is empty (the one-symbol tree)
is assigned the one-bit code false. -/
def codesAux : HTree → List Bool → List (Nat × List Bool)
  | .leaf s, pre => [(s, if pre.isEmpty then [false] else pre)]
  | .node l r, pre => codesAux l (pre ++ [false]) ++ codesAux r (pre ++ [true])

/-- The code table lookup table[sym]: assignments are applied in traversal
order, a later leaf of the same symbol overwriting an earlier one, exactly as
the array writes of buildCodeTable do. -/
def codeOf (t : HTree) (s : Nat) : List Bool :=
  (codesAux t []).foldl (fun acc p => if p.1 = s then p.2 else acc) []

/-- Little-endian bytes of a 32-bit value, as writeUint32 masks and shifts. -/
def le32 (v : Nat) : List Nat :=
  [v % 256, v / 256 % 256, v / 65536 % 256, v / 16777216 % 256]

/-- Little-endian bytes of a 16-bit value, as writeUint16 masks and shifts. -/
def le16 (v : Nat) : List Nat := [v % 256, v / 256 % 256]

/-- Shallow embedding of readUint32: four bytes or failure. -/
def readLe32 : List Nat → Option (Nat × List Nat)
  | b0 :: b1 :: b2 :: b3 :: rest =>
    some (b0 + 256 * b1 + 65536 * b2 + 16777216 * b3, rest)
  | _ => none

/-- Shallow embedding of readUint16: two bytes or failure. -/
def readLe16 : List Nat → Option (Nat × List Nat)
  | b0 :: b1 :: rest => some (b0 + 256 * b1, rest)
  | _ => none

/-- The byte value BitWriter accumulates from bits, most significant first. -/
def bitsToByte (bs : List Bool) : Nat :=
  bs.foldl (fun a b => 2 * a + (if b then 1 else 0)) 0

/-- The byte stream BitWriter emits: a byte per 8 accumulated bits, and flush
pads the final byte with zero bits at the least significant end. Fuel bounds
the recursion; the bit count suffices. -/
def packBits : Nat → List Bool → List Nat
  | _, [] => []
  | 0, _ => []
  | fuel + 1, bs =>
    if 8 ≤ bs.length then bitsToByte (bs.take 8) :: packBits fuel (bs.drop 8)
    else [bitsToByte bs * 2 ^ (8 - bs.length)]

/-- The bits BitReader extracts from one byte, most significant first. -/
def byteBits (b : Nat) : List Bool :=
  [b.testBit 7, b.testBit 6, b.testBit 5, b.testBit 4,
   b.testBit 3, b.testBit 2, b.testBit 1, b.testBit 0]

/-- The frequency entries of the histogram in the iteration order of the
source, ascending symbol value 0 to 255, keeping symbols of positive count. -/
def histEntries (f : Nat → Nat) : List (Nat × Nat) :=
  ((List.range 256).filter (fun s => 0 < f s)).map (fun s => (s, f s))

/-- Symbol and frequency entries of a buffer, as huffmanCompressFile builds
them from its byte histogram. -/
def huffSymFreqs (B : List Nat) : List (Nat × Nat) :=
  histEntries (fun s => B.count s)

/-- Shallow embedding of the byte stream huffmanCompressFile writes: the magic
HUF1, the original length as a little-endian u32, the distinct symbol count as
a little-endian u16, each distinct symbol in ascending order followed by its
u32 frequency, then the bit-packed codes of the input bytes in order, padded
with zero bits to a byte boundary; an empty input writes only the header with
size 0 and symbol count 0. -/
def huffmanEncode (B : List Nat) : List Nat :=
  if B.isEmpty then [72, 85, 70, 49] ++ le32 0 ++ le16 0
  else
    match buildTree (huffSymFreqs B) with
    | none => []
    | some t =>
      [72, 85, 70, 49] ++ le32 B.length ++ le16 (huffSymFreqs B).length
        ++ (huffSymFreqs B).flatMap (fun sf => sf.1 :: le32 sf.2)
        ++ packBits ((B.map (codeOf t)).flatten).length ((B.map (codeOf t)).flatten)

/-- The header histogram reads of huffmanDecompressFile: count pairs of a
symbol byte and a u32 frequency, each overwriting the entry of its symbol. -/
def readPairs : Nat → List Nat → (Nat → Nat) → Option ((Nat → Nat) × List Nat)
  | 0, rest, f => some (f, rest)
  | k + 1, rest, f =>
    match rest with
    | sym :: rest1 =>
      match readLe32 rest1 with
      | none => none
      | some (fr, rest2) => readPairs k rest2 (fun s => if s = sym then fr else f s)
    | [] => none

/-- One tree descent of the decode loop: consume one bit per internal node
until a leaf is reached; a leaf at the root consumes no bits. Failure models
running out of bits mid-descent. -/
def walk : HTree → List Bool → Option (Nat × List Bool)
  | .leaf s, bits => some (s, bits)
  | .node _ _, [] => none
  | .node l r, bit :: bits => if bit then walk r bits else walk l bits

/-- The decode loop of huffmanDecompressFile: one tree descent per output byte
until count bytes are produced. -/
def decodeSymbols (t : HTree) : Nat → List Bool → Option (List Nat)
  | 0, _ => some []
  | k + 1, bits =>
    match walk t bits with
    | none => none
    | some (s, bits1) =>
      match decodeSymbols t k bits1 with
      | none => none
      | some out => some (s :: out)

/-- Shallow embedding of the decoding huffmanDecompressFile performs on the
bytes of its input file: parse the header, rebuild the tree from the stored
histogram with the same buildTree, and decode originalSize symbols from the
remaining bytes read bit by bit; none models every error return of the source
(bad magic, truncated header, inconsistent histogram, exhausted bitstream). -/
def huffmanDecode (file : List Nat) : Option (List Nat) :=
  match file with
  | m1 :: m2 :: m3 :: m4 :: r0 =>
    if m1 = 72 ∧ m2 = 85 ∧ m3 = 70 ∧ m4 = 49 then
      match readLe32 r0 with
      | none => none
      | some (origSize, r1) =>
        match readLe16 r1 with
        | none => none
        | some (numSymbols, r2) =>
          match readPairs numSymbols r2 (fun _ => 0) with
          | none => none
          | some (freqs, r3) =>
            if origSize = 0 then some []
            else
              match buildTree (histEntries freqs) with
              | none => none
              | some t => decodeSymbols t origSize ((r3.map byteBits).flatten)
    else none
  | _ => none

/-- The originalSize field of a Huffman compressed file, read exactly as the
decoder reads it: magic then a little-endian u32. -/
def huffDeclaredSize (file : List Nat) : Option Nat :=
  match file with
  | m1 :: m2 :: m3 :: m4 :: r0 =>
    if m1 = 72 ∧ m2 = 85 ∧ m3 = 70 ∧ m4 = 49 then
      match readLe32 r0 with
      | none => none
      | some (origSize, _) => some origSize
    else none
  | _ => none

/-- Little-endian bytes of one quantized int16 coefficient as the block write
of dctCompressFile stores it (two's complement bit pattern). -/
def int16Bytes (v : Int) : List Nat := le16 (v % 65536).toNat

/-- The bytes of the .dct file dctCompressFile writes for an image of the given
original width and height: magic DCT1, width u16, height u16, channels byte 1,
then ceil(width/8) times ceil(height/8) blocks of 64 coefficients of 2 bytes
each, block-raster order. The coefficient values, q i for the i-th coefficient
overall, come from the floating-point DCT and quantization pipeline; floats are
outside the embedding, and the value function is a parameter because it
determines only the bytes written, never their count or layout. -/
def dctFileBytes (width height : Nat) (q : Nat → Int) : List Nat :=
  [68, 67, 84, 49] ++ le16 width ++ le16 height ++ [1]
    ++ ((List.range ((width + 7) / 8 * ((height + 7) / 8) * 64)).map
        (fun i => int16Bytes (q i))).flatten

/-- Output-file operations a decompress entry point performs, in order. -/
inductive FileOp where
  | openOut
  | writeOut
deriving DecidableEq

/-- The error code and output-file operations of huffmanDecompressFile on a
readable input holding the given bytes and a writable output path: every
decode failure of the source returns -3 before the output file is opened
(the decoded bytes are accumulated in a memory vector first), and on success
the output is opened and then written only if the decoded output is
non-empty. -/
def huffmanDecompressOps (file : List Nat) : Int × List FileOp :=
  match huffmanDecode file with
  | none => (-3, [])
  | some out => (0, FileOp.openOut :: if out.isEmpty then [] else [FileOp.writeOut])

/-- The error code and output-file operations of lzssDecompressFile on a
readable input and writable output: decode failure returns -3 before the
output is opened; on success the output is opened and written only if the
decoded buffer is non-empty. -/
def lzssDecompressOps (file : List Nat) : Int × List FileOp :=
  match lzssDecompressBuffer file with
  | none => (-3, [])
  | some out => (0, FileOp.openOut :: if out.isEmpty then [] else [FileOp.writeOut])

/-- The error code and output-file operations of dctDecompressFile on a
readable input and writable output, mirroring its reads in order: empty input
-1; short or wrong magic -4; short width or height reads or a zero dimension
-4; a missing or non-1 channels byte -5; fewer coefficient bytes than the
ceil(width/8) times ceil(height/8) blocks of 128 bytes the header promises -6
(the source reads block by block into memory and fails on the first short
read); only after every block is read is the output image opened and
written. -/
def dctDecompressOps (file : List Nat) : Int × List FileOp :=
  if file.isEmpty then (-1, [])
  else
    match file with
    | 68 :: 67 :: 84 :: 49 :: r0 =>
      match readLe16 r0 with
      | none => (-4, [])
      | some (width, r1) =>
        match readLe16 r1 with
        | none => (-4, [])
        | some (height, r2) =>
          if width = 0 ∨ height = 0 then (-4, [])
          else
            match r2 with
            | [] => (-5, [])
            | channels :: r3 =>
              if channels ≠ 1 then (-5, [])
              else if r3.length < (width + 7) / 8 * ((height + 7) / 8) * 128 then (-6, [])
              else (0, [FileOp.openOut, FileOp.writeOut])
    | _ => (-4, [])

/-- Symbols of all trees in a merge work list. -/
def qSyms (q : List (HTree × Nat)) : List Nat :=
  (q.map (fun x => treeSyms x.1)).flatten

/-- A sound match for position pos within window bound ws: a real back-reference
into already seen input, of bounded length. -/
def SoundMatch (inp : List Nat) (pos maxLen ws : Nat) (m : Match) : Prop :=
  m = ⟨0, 0⟩ ∨
    (1 ≤ m.offset ∧ ws + m.offset ≤ pos ∧ m.length ≤ maxLen ∧
      ∀ k < m.length, inp.getD (pos - m.offset + k) 0 = inp.getD (pos + k) 0)

theorem matchLen_le (inp : List Nat) :
    ∀ fuel j pos, matchLen inp j pos fuel ≤ fuel := by
  intro fuel
  induction fuel with
  | zero => intro j pos; simp [matchLen]
  | succ m ih =>
    intro j pos
    simp only [matchLen]
    split
    · exact Nat.succ_le_succ (ih (j + 1) (pos + 1))
    · exact Nat.zero_le _

theorem matchLen_eq (inp : List Nat) :
    ∀ fuel j pos k, k < matchLen inp j pos fuel →
      inp.getD (j + k) 0 = inp.getD (pos + k) 0 := by
  intro fuel
  induction fuel with
  | zero => intro j pos k h; simp [matchLen] at h
  | succ m ih =>
    intro j pos k h
    simp only [matchLen] at h
    split at h
    · cases k with
      | zero => simpa using ‹inp.getD j 0 = inp.getD pos 0›
      | succ k =>
        have := ih (j + 1) (pos + 1) k (by omega)
        have e1 : j + 1 + k = j + (k + 1) := by omega
        have e2 : pos + 1 + k = pos + (k + 1) := by omega
        rwa [e1, e2] at this
    · omega

theorem findBestGo_sound (inp : List Nat) (pos maxLen ws : Nat) :
    ∀ (js : List Nat) (best : Match), (∀ j ∈ js, ws ≤ j ∧ j < pos) →
      SoundMatch inp pos maxLen ws best →
      SoundMatch inp pos maxLen ws (findBestGo inp pos maxLen js best) := by
  intro js
  induction js with
  | nil => intro best _ hb; simpa [findBestGo] using hb
  | cons j js ih =>
    intro best hmem hb
    have hj : ws ≤ j ∧ j < pos := hmem j (by simp)
    have hnew : SoundMatch inp pos maxLen ws ⟨pos - j, matchLen inp j pos maxLen⟩ := by
      right
      refine ⟨?_, ?_, matchLen_le inp maxLen j pos, ?_⟩
      · show 1 ≤ pos - j; omega
      · show ws + (pos - j) ≤ pos; omega
      · show ∀ k < matchLen inp j pos maxLen,
          inp.getD (pos - (pos - j) + k) 0 = inp.getD (pos + k) 0
        intro k hk
        have hpj : pos - (pos - j) = j := by omega
        rw [hpj]
        exact matchLen_eq inp maxLen j pos k hk
    simp only [findBestGo]
    split
    · split
      · exact hnew
      · exact ih _ (fun x hx => hmem x (by simp [hx])) hnew
    · exact ih _ (fun x hx => hmem x (by simp [hx])) hb

/-- Soundness of the match search: it returns no match, or a real
back-reference of length at least minMatch, offset within both the window and
the already-seen input, and fitting the remaining input. -/
theorem findBestMatch_sound (inp : List Nat) (pos : Nat) (p : Params)
    (hpos : pos < inp.length) :
    findBestMatch inp pos p = ⟨0, 0⟩ ∨
      (p.minMatch ≤ (findBestMatch inp pos p).length ∧
        1 ≤ (findBestMatch inp pos p).offset ∧
        (findBestMatch inp pos p).offset ≤ pos ∧
        (findBestMatch inp pos p).offset ≤ p.windowSize ∧
        (findBestMatch inp pos p).length ≤ p.lookahead ∧
        pos + (findBestMatch inp pos p).length ≤ inp.length ∧
        ∀ k < (findBestMatch inp pos p).length,
          inp.getD (pos - (findBestMatch inp pos p).offset + k) 0 = inp.getD (pos + k) 0) := by
  by_cases h0 : pos = 0
  · left; simp [findBestMatch, h0]
  · simp only [findBestMatch, h0, if_false]
    set ws := if p.windowSize < pos then pos - p.windowSize else 0 with hws
    set maxLen := if pos + p.lookahead ≤ inp.length then p.lookahead else inp.length - pos
      with hmaxLen
    have hmem : ∀ j ∈ List.range' ws (pos - ws), ws ≤ j ∧ j < pos := by
      intro j hj
      rw [List.mem_range'_1] at hj
      omega
    have hsound : SoundMatch inp pos maxLen ws
        (findBestGo inp pos maxLen (List.range' ws (pos - ws)) ⟨0, 0⟩) :=
      findBestGo_sound inp pos maxLen ws _ _ hmem (Or.inl rfl)
    set best := findBestGo inp pos maxLen (List.range' ws (pos - ws)) ⟨0, 0⟩ with hbest
    have hwsle : pos - ws ≤ p.windowSize := by
      rw [hws]; split <;> omega
    have hml : maxLen ≤ inp.length - pos := by rw [hmaxLen]; split <;> omega
    have hml2 : maxLen ≤ p.lookahead := by rw [hmaxLen]; split <;> omega
    split
    · left; rfl
    · rcases hsound with h | ⟨h1, h2, h3, h4⟩
      · left; exact h
      · right
        refine ⟨by omega, h1, by omega, by omega, by omega, by omega, h4⟩

theorem encodeTokens_pos_le (inp : List Nat) (p : Params) :
    ∀ fuel pos, pos ≤ (encodeTokens inp p pos fuel).2.2 := by
  intro fuel
  induction fuel with
  | zero => intro pos; simp [encodeTokens]
  | succ f ih =>
    intro pos
    simp only [encodeTokens]
    split
    · split
      · exact le_trans (Nat.le_add_right pos _) (ih _)
      · exact le_trans (Nat.le_add_right pos 1) (ih _)
    · exact le_refl pos

theorem encodeTokens_pos_le_length (inp : List Nat) (p : Params) :
    ∀ fuel pos, pos ≤ inp.length → (encodeTokens inp p pos fuel).2.2 ≤ inp.length := by
  intro fuel
  induction fuel with
  | zero => intro pos h; simpa [encodeTokens] using h
  | succ f ih =>
    intro pos h
    simp only [encodeTokens]
    split
    · split
      · dsimp only
        refine ih _ ?_
        have hcond : 0 < (findBestMatch inp pos p).length := ‹_›
        rcases findBestMatch_sound inp pos p ‹pos < inp.length› with hm | hm
        · rw [hm] at hcond; exact absurd hcond (by decide)
        · omega
      · dsimp only
        exact ih _ (by omega)
    · exact h

theorem encodeTokens_progress (inp : List Nat) (p : Params) (fuel pos : Nat)
    (hpos : pos < inp.length) :
    pos < (encodeTokens inp p pos (fuel + 1)).2.2 := by
  simp only [encodeTokens, hpos, if_true]
  split
  · dsimp only
    have hle := encodeTokens_pos_le inp p fuel (pos + (findBestMatch inp pos p).length)
    have hcond : 0 < (findBestMatch inp pos p).length := ‹_›
    omega
  · dsimp only
    have hle := encodeTokens_pos_le inp p fuel (pos + 1)
    omega

theorem getD_take (l : List Nat) (n i : Nat) (h : i < n) :
    (l.take n).getD i 0 = l.getD i 0 := by
  rw [List.getD_eq_getElem?_getD, List.getD_eq_getElem?_getD]
  simp [List.getElem?_take, h]

theorem take_append_getD (l : List Nat) (pos : Nat) (h : pos < l.length) :
    l.take pos ++ [l.getD pos 0] = l.take (pos + 1) := by
  rw [List.take_succ]
  congr 1
  rw [List.getD_eq_getElem?_getD]
  rw [List.getElem?_eq_getElem h]
  rfl

/-- The overlapped copy reproduces the source when the back-reference is real:
copying len bytes starting off behind the end of the decoded text take pos inp
extends it to take (pos + len) inp, even when len exceeds off. -/
theorem lzssCopy_take (inp : List Nat) (off : Nat) :
    ∀ len pos, 1 ≤ off → off ≤ pos → pos + len ≤ inp.length →
      (∀ k < len, inp.getD (pos - off + k) 0 = inp.getD (pos + k) 0) →
      lzssCopy (inp.take pos) (pos - off) len = inp.take (pos + len) := by
  intro len
  induction len with
  | zero => intro pos _ _ _ _; simp [lzssCopy]
  | succ l ih =>
    intro pos hoff hoffpos hlen hmatch
    simp only [lzssCopy]
    have hplt : pos < inp.length := by omega
    have hgd : (inp.take pos).getD (pos - off) 0 = inp.getD pos 0 := by
      rw [getD_take inp pos (pos - off) (by omega)]
      have := hmatch 0 (by omega)
      simpa using this
    rw [hgd, take_append_getD inp pos hplt]
    have hstep : pos - off + 1 = pos + 1 - off := by omega
    rw [hstep]
    have hrec := ih (pos + 1) hoff (by omega) (by omega) ?_
    · rw [hrec]
      congr 1
      omega
    · intro k hk
      have := hmatch (k + 1) (by omega)
      have e1 : pos - off + (k + 1) = pos + 1 - off + k := by omega
      have e2 : pos + (k + 1) = pos + 1 + k := by omega
      rwa [e1, e2] at this

theorem decodeTokens_match_step (flags fuel offLo offHi lenB : Nat) (rest out : List Nat)
    (hflag : flags % 2 = 1)
    (hok : ¬ (offLo + 256 * offHi = 0 ∨ lenB = 0 ∨ out.length < offLo + 256 * offHi)) :
    decodeTokens flags (fuel + 1) (offLo :: offHi :: lenB :: rest) out
      = decodeTokens (flags / 2) fuel rest
          (lzssCopy out (out.length - (offLo + 256 * offHi)) lenB) := by
  simp only [decodeTokens]
  rw [if_pos hflag, if_neg hok]

theorem decodeTokens_lit_step (flags fuel b : Nat) (rest out : List Nat)
    (hflag : flags % 2 = 0) :
    decodeTokens flags (fuel + 1) (b :: rest) out
      = decodeTokens (flags / 2) fuel rest (out ++ [b]) := by
  simp only [decodeTokens]
  rw [if_neg (by omega)]

/-- Decoding one encoded token group advances the reconstructed text from
take pos to take pos2 and hands any following bytes back untouched; the side
condition says the bytes after the group may be non-empty only when the group
did not consume the input to its end. -/
theorem decode_encode_group (inp : List Nat) :
    ∀ fuel pos extra, pos ≤ inp.length →
      ((encodeTokens inp lzssParams pos fuel).2.2 = inp.length → extra = []) →
      decodeTokens (encodeTokens inp lzssParams pos fuel).2.1 fuel
        ((encodeTokens inp lzssParams pos fuel).1 ++ extra) (inp.take pos)
        = some (inp.take (encodeTokens inp lzssParams pos fuel).2.2, extra) := by
  intro fuel
  induction fuel with
  | zero =>
    intro pos extra hpos hextra
    simp [encodeTokens, decodeTokens]
  | succ f ih =>
    intro pos extra hpos hextra
    by_cases hlt : pos < inp.length
    · rcases findBestMatch_sound inp pos lzssParams hlt with hm | hm
      · -- literal token
        have hcond : ¬ 0 < (findBestMatch inp pos lzssParams).length := by
          rw [hm]; decide
        have henc : encodeTokens inp lzssParams pos (f + 1)
            = (inp.getD pos 0 :: (encodeTokens inp lzssParams (pos + 1) f).1,
               2 * (encodeTokens inp lzssParams (pos + 1) f).2.1,
               (encodeTokens inp lzssParams (pos + 1) f).2.2) := by
          simp only [encodeTokens, hlt, hcond, if_true, if_false, ite_true, ite_false]
        rw [henc] at hextra ⊢
        dsimp only at hextra ⊢
        rw [List.cons_append, decodeTokens_lit_step _ _ _ _ _ (by omega),
          take_append_getD inp pos hlt]
        have hdiv : 2 * (encodeTokens inp lzssParams (pos + 1) f).2.1 / 2
            = (encodeTokens inp lzssParams (pos + 1) f).2.1 := by omega
        rw [hdiv]
        exact ih (pos + 1) extra (by omega) hextra
      · -- match token
        obtain ⟨hmm, hoff1, hoffpos, hoffw, hlen18, hfit, hmatch⟩ := hm
        have h3 : (3 : Nat) ≤ (findBestMatch inp pos lzssParams).length := hmm
        have h4096 : (findBestMatch inp pos lzssParams).offset ≤ 4096 := hoffw
        have h18 : (findBestMatch inp pos lzssParams).length ≤ 18 := hlen18
        have hcond : 0 < (findBestMatch inp pos lzssParams).length := by omega
        have henc : encodeTokens inp lzssParams pos (f + 1)
            = ((findBestMatch inp pos lzssParams).offset % 256 ::
                (findBestMatch inp pos lzssParams).offset / 256 % 256 ::
                (findBestMatch inp pos lzssParams).length % 256 ::
                (encodeTokens inp lzssParams
                  (pos + (findBestMatch inp pos lzssParams).length) f).1,
               2 * (encodeTokens inp lzssParams
                  (pos + (findBestMatch inp pos lzssParams).length) f).2.1 + 1,
               (encodeTokens inp lzssParams
                  (pos + (findBestMatch inp pos lzssParams).length) f).2.2) := by
          simp only [encodeTokens, hlt, hcond, if_true, if_false, ite_true, ite_false]
        rw [henc] at hextra ⊢
        dsimp only at hextra ⊢
        set m := findBestMatch inp pos lzssParams with hmdef
        set r := encodeTokens inp lzssParams (pos + m.length) f with hrdef
        have houtlen : (inp.take pos).length = pos := by
          rw [List.length_take]; omega
        have hok : ¬ (m.offset % 256 + 256 * (m.offset / 256 % 256) = 0 ∨
            m.length % 256 = 0 ∨
            (inp.take pos).length < m.offset % 256 + 256 * (m.offset / 256 % 256)) := by
          rw [houtlen]; omega
        rw [List.cons_append, List.cons_append, List.cons_append,
          decodeTokens_match_step _ _ _ _ _ _ _ (by omega) hok]
        have hoffeq : m.offset % 256 + 256 * (m.offset / 256 % 256) = m.offset := by
          omega
        have hlenB : m.length % 256 = m.length := by omega
        rw [hoffeq, hlenB, houtlen,
          lzssCopy_take inp m.offset m.length pos (by omega) (by omega) (by omega) hmatch]
        have hdiv : (2 * r.2.1 + 1) / 2 = r.2.1 := by omega
        rw [hdiv]
        exact ih (pos + m.length) extra (by omega) hextra
    · -- position already at the end of the input: the group is empty
      have hpn : pos = inp.length := by omega
      have henc : encodeTokens inp lzssParams pos (f + 1) = ([], 0, pos) := by
        simp only [encodeTokens, hlt, if_false, ite_false]
      rw [henc] at hextra ⊢
      dsimp only at hextra ⊢
      have hex : extra = [] := hextra hpn
      subst hex
      simp [decodeTokens]

theorem lzssEncodeLoop_end (inp : List Nat) (p : Params) :
    ∀ fuel pos, inp.length ≤ pos → lzssEncodeLoop inp p pos fuel = [] := by
  intro fuel pos h
  cases fuel with
  | zero => simp [lzssEncodeLoop]
  | succ f => simp [lzssEncodeLoop, show ¬ pos < inp.length by omega]

theorem lzss_roundtrip_loop (inp : List Nat) :
    ∀ gfuel pos dfuel, pos ≤ inp.length → inp.length - pos ≤ gfuel →
      (lzssEncodeLoop inp lzssParams pos gfuel).length ≤ dfuel →
      lzssDecodeLoop dfuel (lzssEncodeLoop inp lzssParams pos gfuel) (inp.take pos)
        = some inp := by
  intro gfuel
  induction gfuel with
  | zero =>
    intro pos dfuel hpos hg hd
    have hpn : pos = inp.length := by omega
    subst hpn
    simp [lzssEncodeLoop, lzssDecodeLoop, List.take_length]
  | succ g ih =>
    intro pos dfuel hpos hg hd
    by_cases hlt : pos < inp.length
    · have hloop : lzssEncodeLoop inp lzssParams pos (g + 1)
          = (encodeTokens inp lzssParams pos 8).2.1 ::
            ((encodeTokens inp lzssParams pos 8).1 ++
              lzssEncodeLoop inp lzssParams (encodeTokens inp lzssParams pos 8).2.2 g) := by
        simp only [lzssEncodeLoop, hlt, if_true, ite_true]
      rw [hloop] at hd ⊢
      have hd1 : 1 ≤ dfuel := le_trans (by simp) hd
      obtain ⟨d, rfl⟩ : ∃ d, dfuel = d + 1 := ⟨dfuel - 1, by omega⟩
      have hside : (encodeTokens inp lzssParams pos 8).2.2 = inp.length →
          lzssEncodeLoop inp lzssParams (encodeTokens inp lzssParams pos 8).2.2 g = [] := by
        intro h
        exact lzssEncodeLoop_end inp lzssParams g _ (by omega)
      have hgrp := decode_encode_group inp 8 pos
        (lzssEncodeLoop inp lzssParams (encodeTokens inp lzssParams pos 8).2.2 g) hpos hside
      simp only [lzssDecodeLoop]
      rw [hgrp]
      have hpos2 := encodeTokens_pos_le_length inp lzssParams 8 pos hpos
      have hprog : pos < (encodeTokens inp lzssParams pos 8).2.2 :=
        encodeTokens_progress inp lzssParams 7 pos hlt
      have hdlen : (lzssEncodeLoop inp lzssParams (encodeTokens inp lzssParams pos 8).2.2 g).length
          ≤ d := by
        simp only [List.length_cons, List.length_append] at hd
        omega
      exact ih (encodeTokens inp lzssParams pos 8).2.2 d hpos2 (by omega) hdlen
    · have hpn : pos = inp.length := by omega
      subst hpn
      rw [lzssEncodeLoop_end inp lzssParams (g + 1) inp.length (le_refl _)]
      simp [lzssDecodeLoop, List.take_length]

/-- C2: for every byte buffer B, LZSS-decoding the token stream produced by
LZSS-encoding B with window size 4096, maximum match length 18 and minimum
match length 3 yields exactly B; overlapping back-references are covered by
the general statement, which quantifies over every buffer, including runs
whose match length exceeds its offset. -/
theorem lzss_roundtrip (B : List Nat) :
    lzssDecompressBuffer (lzssCompressBuffer B lzssParams) = some B := by
  have h := lzss_roundtrip_loop B B.length 0 (lzssCompressBuffer B lzssParams).length
    (by omega) (by omega) (le_refl _)
  simpa [lzssCompressBuffer, lzssDecompressBuffer] using h

theorem mem_le_foldr_max : ∀ (l : List Nat) (x : Nat), x ∈ l → x ≤ l.foldr max 0 := by
  intro l
  induction l with
  | nil => intro x h; simp at h
  | cons a l ih =>
    intro x h
    rcases List.mem_cons.mp h with h | h
    · subst h; simp [List.foldr_cons, le_max_left]
    · exact le_trans (ih x h) (by simp [List.foldr_cons, le_max_right])

theorem findBestScan_stable (inp : List Nat) (pos maxLen : Nat) :
    ∀ (js : List Nat) (best : Match),
      (∀ j ∈ js, matchLen inp j pos maxLen ≤ best.length) →
      findBestScan inp pos maxLen js best = best := by
  intro js
  induction js with
  | nil => intro best _; rfl
  | cons j js ih =>
    intro best h
    simp only [findBestScan]
    rw [if_neg (by have := h j (by simp); omega)]
    exact ih best (fun x hx => h x (by simp [hx]))

theorem findBestGo_eq_scan (inp : List Nat) (pos maxLen : Nat) :
    ∀ (js : List Nat) (best : Match),
      findBestGo inp pos maxLen js best = findBestScan inp pos maxLen js best := by
  intro js
  induction js with
  | nil => intro best; rfl
  | cons j js ih =>
    intro best
    simp only [findBestGo, findBestScan]
    by_cases hk : best.length < matchLen inp j pos maxLen
    · rw [if_pos hk, if_pos hk]
      by_cases hmax : matchLen inp j pos maxLen = maxLen
      · rw [if_pos hmax]
        refine (findBestScan_stable inp pos maxLen js _ ?_).symm
        intro x hx
        show matchLen inp x pos maxLen ≤ matchLen inp j pos maxLen
        rw [hmax]
        exact matchLen_le inp maxLen x pos
      · rw [if_neg hmax]
        exact ih _
    · rw [if_neg hk, if_neg hk]
      exact ih best

theorem findBestScan_char (inp : List Nat) (pos maxLen : Nat) :
    ∀ (js : List Nat) (best : Match) (M : Nat),
      (js.map (fun j => matchLen inp j pos maxLen)).foldr max 0 = M →
      best.length < M →
      ∃ j, js.find? (fun j => matchLen inp j pos maxLen = M) = some j ∧
        findBestScan inp pos maxLen js best = ⟨pos - j, M⟩ := by
  intro js
  induction js with
  | nil =>
    intro best M hM h
    simp only [List.map_nil, List.foldr_nil] at hM
    omega
  | cons j js ih =>
    intro best M hM h
    simp only [List.map_cons, List.foldr_cons] at hM
    by_cases hj : matchLen inp j pos maxLen = M
    · refine ⟨j, ?_, ?_⟩
      · exact List.find?_cons_of_pos _ (by simp only [decide_eq_true_eq]; exact hj)
      · simp only [findBestScan]
        rw [if_pos (by omega)]
        rw [findBestScan_stable inp pos maxLen js _ ?_]
        · rw [hj]
        · intro x hx
          show matchLen inp x pos maxLen ≤ matchLen inp j pos maxLen
          have hmem : matchLen inp x pos maxLen
              ∈ js.map (fun x => matchLen inp x pos maxLen) := List.mem_map_of_mem _ hx
          have := mem_le_foldr_max _ _ hmem
          omega
    · have hM2 : (js.map (fun x => matchLen inp x pos maxLen)).foldr max 0 = M := by
        omega
      simp only [findBestScan]
      by_cases hup : best.length < matchLen inp j pos maxLen
      · rw [if_pos hup]
        obtain ⟨j1, hfind, hscan⟩ := ih ⟨pos - j, matchLen inp j pos maxLen⟩ M hM2
          (by show matchLen inp j pos maxLen < M; omega)
        refine ⟨j1, ?_, hscan⟩
        rw [List.find?_cons_of_neg _ (by simp only [decide_eq_true_eq]; exact hj)]
        exact hfind
      · rw [if_neg hup]
        obtain ⟨j1, hfind, hscan⟩ := ih best M hM2 (by omega)
        refine ⟨j1, ?_, hscan⟩
        rw [List.find?_cons_of_neg _ (by simp only [decide_eq_true_eq]; exact hj)]
        exact hfind

theorem Match_length_mk (a b : Nat) : Match.length ⟨a, b⟩ = b := rfl

theorem findBestMatchSpec_eq (inp : List Nat) (pos : Nat) (p : Params) (j : Nat)
    (hfind : (lzssCandidates pos p).find?
      (fun j => matchLen inp j pos (lzssMaxLen inp pos p) = lzssBestLen inp pos p) = some j) :
    findBestMatchSpec inp pos p
      = if lzssBestLen inp pos p < p.minMatch then ⟨0, 0⟩
        else ⟨pos - j, lzssBestLen inp pos p⟩ := by
  unfold findBestMatchSpec
  rw [hfind]

theorem findBestMatchSpec_small (inp : List Nat) (pos : Nat) (p : Params)
    (h : lzssBestLen inp pos p < p.minMatch) :
    findBestMatchSpec inp pos p = ⟨0, 0⟩ := by
  unfold findBestMatchSpec
  rw [if_pos h]

/-- C5: the source match search equals the policy the spec describes: examine
candidates j in [max(0, pos - windowSize), pos) in increasing order, extend
equality up to min(lookahead, remaining), keep the first maximal-length match
(replace only on strictly greater length; the early stop at the maximum
possible length never changes the result), and report no match when the best
length is below the minimum match length 3. -/
theorem findBestMatch_policy (inp : List Nat) (pos : Nat) :
    findBestMatch inp pos lzssParams = findBestMatchSpec inp pos lzssParams := by
  by_cases h0 : pos = 0
  · subst h0
    rfl
  · have hws : (if lzssParams.windowSize < pos then pos - lzssParams.windowSize else 0)
        = pos - lzssParams.windowSize := by
      split <;> omega
    have hml : (if pos + lzssParams.lookahead ≤ inp.length then lzssParams.lookahead
        else inp.length - pos) = lzssMaxLen inp pos lzssParams := by
      simp only [lzssMaxLen]
      split <;> omega
    simp only [findBestMatch, h0, if_false, ite_false, hws, hml]
    rw [findBestGo_eq_scan]
    have hcands : List.range' (pos - lzssParams.windowSize)
        (pos - (pos - lzssParams.windowSize)) = lzssCandidates pos lzssParams := rfl
    rw [hcands]
    by_cases hM : 0 < lzssBestLen inp pos lzssParams
    · obtain ⟨j, hfind, hscan⟩ := findBestScan_char inp pos (lzssMaxLen inp pos lzssParams)
        (lzssCandidates pos lzssParams) ⟨0, 0⟩ (lzssBestLen inp pos lzssParams) rfl
        (by show (0 : Nat) < lzssBestLen inp pos lzssParams; exact hM)
      rw [hscan]
      rw [Match_length_mk]
      exact (findBestMatchSpec_eq inp pos lzssParams j hfind).symm
    · have hM0 : lzssBestLen inp pos lzssParams = 0 := by omega
      rw [findBestScan_stable inp pos (lzssMaxLen inp pos lzssParams)
        (lzssCandidates pos lzssParams) ⟨0, 0⟩ ?_]
      · rw [Match_length_mk]
        rw [if_pos (show (0 : Nat) < lzssParams.minMatch by decide)]
        exact (findBestMatchSpec_small inp pos lzssParams (by rw [hM0]; decide)).symm
      · intro x hx
        show matchLen inp x pos (lzssMaxLen inp pos lzssParams) ≤ 0
        have hmem : matchLen inp x pos (lzssMaxLen inp pos lzssParams)
            ∈ (lzssCandidates pos lzssParams).map
              (fun x => matchLen inp x pos (lzssMaxLen inp pos lzssParams)) :=
          List.mem_map_of_mem _ hx
        have hle := mem_le_foldr_max _ _ hmem
        have hM0b := hM0
        simp only [lzssBestLen] at hM0b
        omega

example : lzssDecompressBuffer [0, 0, 1, 2, 3, 4, 5, 6, 7, 0, 8]
    = some [0, 1, 2, 3, 4, 5, 6, 7, 8] := by decide

example :
    lzssDecompressBuffer (lzssCompressBuffer [65, 66, 65, 66, 65, 66, 65, 66, 65, 66] lzssParams)
    = some [65, 66, 65, 66, 65, 66, 65, 66, 65, 66] := by decide

theorem decodeTokens_match_short1 (flags fuel b : Nat) (out : List Nat)
    (hflag : flags % 2 = 1) :
    decodeTokens flags (fuel + 1) [b] out = none := by
  simp only [decodeTokens]
  rw [if_pos hflag]

theorem decodeTokens_match_short2 (flags fuel b b2 : Nat) (out : List Nat)
    (hflag : flags % 2 = 1) :
    decodeTokens flags (fuel + 1) [b, b2] out = none := by
  simp only [decodeTokens]
  rw [if_pos hflag]

theorem decodeTokens_match_bad (flags fuel o1 o2 l : Nat) (rest out : List Nat)
    (hflag : flags % 2 = 1)
    (hbad : o1 + 256 * o2 = 0 ∨ l = 0 ∨ out.length < o1 + 256 * o2) :
    decodeTokens flags (fuel + 1) (o1 :: o2 :: l :: rest) out = none := by
  simp only [decodeTokens]
  rw [if_pos hflag, if_pos hbad]

/-- C6 counterexample: a flag byte whose first bit requires a literal byte that
is beyond the remaining input does not signal truncation: the decoder stops
early and succeeds with an empty output. -/
theorem lzss_literal_truncation_succeeds : lzssDecompressBuffer [0] = some [] := by decide

/-- C6 (amended): the LZSS decoder fails, producing no output, on every match
token whose offset is 0, whose length is 0 or whose offset exceeds the bytes
decoded so far, and on every flag bit whose 3-byte match record extends beyond
the remaining input (1 or 2 bytes left); a flag bit requiring a literal byte
beyond the remaining input instead ends decoding successfully. -/
theorem lzss_decode_errors_amended :
    (∀ (flags fuel o1 o2 l : Nat) (rest out : List Nat), flags % 2 = 1 →
      (o1 + 256 * o2 = 0 ∨ l = 0 ∨ out.length < o1 + 256 * o2) →
      decodeTokens flags (fuel + 1) (o1 :: o2 :: l :: rest) out = none)
    ∧ (∀ (flags fuel b : Nat) (out : List Nat), flags % 2 = 1 →
      decodeTokens flags (fuel + 1) [b] out = none)
    ∧ (∀ (flags fuel b b2 : Nat) (out : List Nat), flags % 2 = 1 →
      decodeTokens flags (fuel + 1) [b, b2] out = none)
    ∧ (∀ (flags : Nat) (rest : List Nat), flags % 2 = 1 → rest ≠ [] →
      lzssDecompressBuffer (flags :: rest) = none) := by
  refine ⟨decodeTokens_match_bad, decodeTokens_match_short1, decodeTokens_match_short2, ?_⟩
  intro flags rest hflag hne
  match rest with
  | [] => exact absurd rfl hne
  | b :: rest1 =>
    have hdt : decodeTokens flags 8 (b :: rest1) ([] : List Nat) = none := by
      match rest1 with
      | [] => exact decodeTokens_match_short1 flags 7 b [] hflag
      | [b2] => exact decodeTokens_match_short2 flags 7 b b2 [] hflag
      | b2 :: b3 :: r =>
        exact decodeTokens_match_bad flags 7 b b2 b3 r [] hflag (by simp; omega)
    show lzssDecodeLoop (flags :: b :: rest1).length (flags :: b :: rest1) [] = none
    have hlen : (flags :: b :: rest1).length = rest1.length + 2 := by simp
    rw [hlen]
    simp only [lzssDecodeLoop]
    rw [hdt]

/-- C3 counterexample: the token stream of the 9-byte buffer 0..8 is 11 bytes;
its strict 9-byte prefix, cut at a token boundary, decodes successfully to the
first 8 bytes instead of failing with a truncation error, while the full
stream decodes to the original buffer. -/
theorem lzss_prefix_partial_decode :
    lzssCompressBuffer [0, 1, 2, 3, 4, 5, 6, 7, 8] lzssParams
      = [0, 0, 1, 2, 3, 4, 5, 6, 7, 0, 8]
    ∧ lzssDecompressBuffer [0, 0, 1, 2, 3, 4, 5, 6, 7, 0, 8]
      = some [0, 1, 2, 3, 4, 5, 6, 7, 8]
    ∧ lzssDecompressBuffer
        (List.take 9 (lzssCompressBuffer [0, 1, 2, 3, 4, 5, 6, 7, 8] lzssParams))
      = some [0, 1, 2, 3, 4, 5, 6, 7] := by decide

/-- Decoding a truncated encoded token group either fails on a cut match
record or stops at a token boundary with a prefix of the input reconstructed
and nothing left over. -/
theorem decode_encode_group_take (inp : List Nat) :
    ∀ fuel pos mm, pos ≤ inp.length →
      mm ≤ (encodeTokens inp lzssParams pos fuel).1.length →
      decodeTokens (encodeTokens inp lzssParams pos fuel).2.1 fuel
        (List.take mm (encodeTokens inp lzssParams pos fuel).1) (inp.take pos) = none ∨
      ∃ k, k ≤ inp.length ∧
        decodeTokens (encodeTokens inp lzssParams pos fuel).2.1 fuel
          (List.take mm (encodeTokens inp lzssParams pos fuel).1) (inp.take pos)
          = some (inp.take k, []) := by
  intro fuel
  induction fuel with
  | zero =>
    intro pos mm hpos hmm
    right
    exact ⟨pos, hpos, by simp [encodeTokens, decodeTokens]⟩
  | succ f ih =>
    intro pos mm hpos hmm
    by_cases hlt : pos < inp.length
    · rcases findBestMatch_sound inp pos lzssParams hlt with hm | hm
      · -- literal token
        have hcond : ¬ 0 < (findBestMatch inp pos lzssParams).length := by
          rw [hm]; decide
        have henc : encodeTokens inp lzssParams pos (f + 1)
            = (inp.getD pos 0 :: (encodeTokens inp lzssParams (pos + 1) f).1,
               2 * (encodeTokens inp lzssParams (pos + 1) f).2.1,
               (encodeTokens inp lzssParams (pos + 1) f).2.2) := by
          simp only [encodeTokens, hlt, hcond, if_true, if_false, ite_true, ite_false]
        rw [henc] at hmm ⊢
        dsimp only at hmm ⊢
        cases mm with
        | zero =>
          right
          exact ⟨pos, by omega, by simp [decodeTokens]⟩
        | succ mm1 =>
          rw [List.take_succ_cons, decodeTokens_lit_step _ _ _ _ _ (by omega),
            take_append_getD inp pos hlt]
          have hdiv : 2 * (encodeTokens inp lzssParams (pos + 1) f).2.1 / 2
              = (encodeTokens inp lzssParams (pos + 1) f).2.1 := by omega
          rw [hdiv]
          exact ih (pos + 1) mm1 (by omega) (by simp at hmm; omega)
      · -- match token
        obtain ⟨hmm3, hoff1, hoffpos, hoffw, hlen18, hfit, hmatch⟩ := hm
        have h3 : (3 : Nat) ≤ (findBestMatch inp pos lzssParams).length := hmm3
        have h4096 : (findBestMatch inp pos lzssParams).offset ≤ 4096 := hoffw
        have h18 : (findBestMatch inp pos lzssParams).length ≤ 18 := hlen18
        have hcond : 0 < (findBestMatch inp pos lzssParams).length := by omega
        have henc : encodeTokens inp lzssParams pos (f + 1)
            = ((findBestMatch inp pos lzssParams).offset % 256 ::
                (findBestMatch inp pos lzssParams).offset / 256 % 256 ::
                (findBestMatch inp pos lzssParams).length % 256 ::
                (encodeTokens inp lzssParams
                  (pos + (findBestMatch inp pos lzssParams).length) f).1,
               2 * (encodeTokens inp lzssParams
                  (pos + (findBestMatch inp pos lzssParams).length) f).2.1 + 1,
               (encodeTokens inp lzssParams
                  (pos + (findBestMatch inp pos lzssParams).length) f).2.2) := by
          simp only [encodeTokens, hlt, hcond, if_true, if_false, ite_true, ite_false]
        rw [henc] at hmm ⊢
        dsimp only at hmm ⊢
        set m := findBestMatch inp pos lzssParams with hmdef
        set r := encodeTokens inp lzssParams (pos + m.length) f with hrdef
        match mm with
        | 0 =>
          right
          exact ⟨pos, by omega, by simp [decodeTokens]⟩
        | 1 =>
          left
          rw [show List.take 1 (m.offset % 256 :: m.offset / 256 % 256 ::
              m.length % 256 :: r.1) = [m.offset % 256] by simp]
          exact decodeTokens_match_short1 _ _ _ _ (by omega)
        | 2 =>
          left
          rw [show List.take 2 (m.offset % 256 :: m.offset / 256 % 256 ::
              m.length % 256 :: r.1) = [m.offset % 256, m.offset / 256 % 256] by simp]
          exact decodeTokens_match_short2 _ _ _ _ _ (by omega)
        | mm3 + 3 =>
          rw [List.take_succ_cons, List.take_succ_cons, List.take_succ_cons]
          have houtlen : (inp.take pos).length = pos := by
            rw [List.length_take]; omega
          have hok : ¬ (m.offset % 256 + 256 * (m.offset / 256 % 256) = 0 ∨
              m.length % 256 = 0 ∨
              (inp.take pos).length < m.offset % 256 + 256 * (m.offset / 256 % 256)) := by
            rw [houtlen]; omega
          rw [decodeTokens_match_step _ _ _ _ _ _ _ (by omega) hok]
          have hoffeq : m.offset % 256 + 256 * (m.offset / 256 % 256) = m.offset := by
            omega
          have hlenB : m.length % 256 = m.length := by omega
          rw [hoffeq, hlenB, houtlen,
            lzssCopy_take inp m.offset m.length pos (by omega) (by omega) (by omega) hmatch]
          have hdiv : (2 * r.2.1 + 1) / 2 = r.2.1 := by omega
          rw [hdiv]
          refine ih (pos + m.length) mm3 (by omega) ?_
          have hlen3 : (m.offset % 256 :: m.offset / 256 % 256 :: m.length % 256 :: r.1).length
              = r.1.length + 3 := by simp
          have hr1 : r.1.length = (encodeTokens inp lzssParams (pos + m.length) f).1.length := by
            rw [hrdef]
          omega
    · have henc : encodeTokens inp lzssParams pos (f + 1) = ([], 0, pos) := by
        simp only [encodeTokens, hlt, if_false, ite_false]
      rw [henc] at hmm ⊢
      dsimp only at hmm ⊢
      right
      exact ⟨pos, hpos, by simp [decodeTokens]⟩

/-- Decoding any byte prefix of the encoded stream yields an error or a prefix
of the original input. -/
theorem lzss_prefix_loop (inp : List Nat) :
    ∀ gfuel pos dfuel mm, pos ≤ inp.length → inp.length - pos ≤ gfuel →
      (List.take mm (lzssEncodeLoop inp lzssParams pos gfuel)).length ≤ dfuel →
      lzssDecodeLoop dfuel (List.take mm (lzssEncodeLoop inp lzssParams pos gfuel))
        (inp.take pos) = none ∨
      ∃ k, k ≤ inp.length ∧
        lzssDecodeLoop dfuel (List.take mm (lzssEncodeLoop inp lzssParams pos gfuel))
          (inp.take pos) = some (inp.take k) := by
  intro gfuel
  induction gfuel with
  | zero =>
    intro pos dfuel mm hpos hg hd
    right
    refine ⟨pos, hpos, ?_⟩
    simp [lzssEncodeLoop, lzssDecodeLoop]
  | succ g ih =>
    intro pos dfuel mm hpos hg hd
    by_cases hlt : pos < inp.length
    · have hloop : lzssEncodeLoop inp lzssParams pos (g + 1)
          = (encodeTokens inp lzssParams pos 8).2.1 ::
            ((encodeTokens inp lzssParams pos 8).1 ++
              lzssEncodeLoop inp lzssParams (encodeTokens inp lzssParams pos 8).2.2 g) := by
        simp only [lzssEncodeLoop, hlt, if_true, ite_true]
      rw [hloop] at hd ⊢
      cases mm with
      | zero =>
        right
        exact ⟨pos, by omega, by simp [lzssDecodeLoop]⟩
      | succ mm1 =>
        rw [List.take_succ_cons] at hd ⊢
        have hd1 : 1 ≤ dfuel := le_trans (by simp) hd
        obtain ⟨d, rfl⟩ : ∃ d, dfuel = d + 1 := ⟨dfuel - 1, by omega⟩
        simp only [lzssDecodeLoop]
        by_cases hmm : mm1 ≤ (encodeTokens inp lzssParams pos 8).1.length
        · have htk : List.take mm1 ((encodeTokens inp lzssParams pos 8).1 ++
              lzssEncodeLoop inp lzssParams (encodeTokens inp lzssParams pos 8).2.2 g)
              = List.take mm1 (encodeTokens inp lzssParams pos 8).1 := by
            rw [List.take_append_eq_append_take,
              show mm1 - (encodeTokens inp lzssParams pos 8).1.length = 0 by omega]
            simp
          rw [htk]
          rcases decode_encode_group_take inp 8 pos mm1 hpos hmm with hno | ⟨k, hk, hyes⟩
          · left
            rw [hno]
          · right
            refine ⟨k, hk, ?_⟩
            rw [hyes]
            show lzssDecodeLoop d [] (List.take k inp) = some (List.take k inp)
            cases d <;> rfl
        · have htk : List.take mm1 ((encodeTokens inp lzssParams pos 8).1 ++
              lzssEncodeLoop inp lzssParams (encodeTokens inp lzssParams pos 8).2.2 g)
              = (encodeTokens inp lzssParams pos 8).1 ++
                List.take (mm1 - (encodeTokens inp lzssParams pos 8).1.length)
                  (lzssEncodeLoop inp lzssParams (encodeTokens inp lzssParams pos 8).2.2 g) := by
            rw [List.take_append_eq_append_take,
              List.take_of_length_le (by omega)]
          rw [htk]
          have hside : (encodeTokens inp lzssParams pos 8).2.2 = inp.length →
              List.take (mm1 - (encodeTokens inp lzssParams pos 8).1.length)
                (lzssEncodeLoop inp lzssParams (encodeTokens inp lzssParams pos 8).2.2 g)
                = [] := by
            intro h
            rw [lzssEncodeLoop_end inp lzssParams g _ (by omega), List.take_nil]
          have hgrp := decode_encode_group inp 8 pos
            (List.take (mm1 - (encodeTokens inp lzssParams pos 8).1.length)
              (lzssEncodeLoop inp lzssParams (encodeTokens inp lzssParams pos 8).2.2 g))
            hpos hside
          rw [hgrp]
          have hpos2 := encodeTokens_pos_le_length inp lzssParams 8 pos hpos
          have hprog : pos < (encodeTokens inp lzssParams pos 8).2.2 :=
            encodeTokens_progress inp lzssParams 7 pos hlt
          have hdlen : (List.take (mm1 - (encodeTokens inp lzssParams pos 8).1.length)
              (lzssEncodeLoop inp lzssParams (encodeTokens inp lzssParams pos 8).2.2 g)).length
              ≤ d := by
            rw [htk] at hd
            simp only [List.length_cons, List.length_append] at hd
            omega
          exact ih (encodeTokens inp lzssParams pos 8).2.2 d
            (mm1 - (encodeTokens inp lzssParams pos 8).1.length) hpos2 (by omega) hdlen
    · rw [lzssEncodeLoop_end inp lzssParams (g + 1) pos (by omega), List.take_nil]
      right
      exact ⟨pos, hpos, by simp [lzssDecodeLoop]⟩

theorem readLe32_le32 (v : Nat) (r : List Nat) :
    readLe32 (le32 v ++ r) = some (v % 4294967296, r) := by
  simp only [le32, List.cons_append, List.nil_append, readLe32]
  have hv : v % 256 + 256 * (v / 256 % 256) + 65536 * (v / 65536 % 256)
      + 16777216 * (v / 16777216 % 256) = v % 4294967296 := by omega
  rw [hv]

theorem readLe16_le16 (v : Nat) (r : List Nat) :
    readLe16 (le16 v ++ r) = some (v % 65536, r) := by
  simp only [le16, List.cons_append, List.nil_append, readLe16]
  have hv : v % 256 + 256 * (v / 256 % 256) = v % 65536 := by omega
  rw [hv]

theorem readPairs_encode :
    ∀ (entries : List (Nat × Nat)) (r : List Nat) (f : Nat → Nat),
      (∀ e ∈ entries, e.2 < 4294967296) →
      readPairs entries.length (entries.flatMap (fun sf => sf.1 :: le32 sf.2) ++ r) f
        = some (entries.foldl (fun g sf s => if s = sf.1 then sf.2 else g s) f, r) := by
  intro entries
  induction entries with
  | nil => intro r f _; simp [readPairs]
  | cons e tl ih =>
    intro r f hlt
    simp only [List.flatMap_cons, List.length_cons, List.cons_append, List.append_assoc,
      List.foldl_cons]
    simp only [readPairs]
    rw [readLe32_le32]
    have he : e.2 % 4294967296 = e.2 := Nat.mod_eq_of_lt (hlt e (by simp))
    rw [he]
    exact ih r _ (fun x hx => hlt x (by simp [hx]))

theorem foldl_update_notmem :
    ∀ (entries : List (Nat × Nat)) (f : Nat → Nat) (s : Nat),
      (∀ e ∈ entries, e.1 ≠ s) →
      (entries.foldl (fun g sf s => if s = sf.1 then sf.2 else g s) f) s = f s := by
  intro entries
  induction entries with
  | nil => intro f s _; rfl
  | cons e tl ih =>
    intro f s h
    simp only [List.foldl_cons]
    rw [ih _ s (fun x hx => h x (by simp [hx]))]
    rw [if_neg (fun hc => h e (by simp) (by omega))]

theorem foldl_update_mem :
    ∀ (entries : List (Nat × Nat)) (f : Nat → Nat) (s v : Nat),
      (s, v) ∈ entries → (∀ e ∈ entries, e.1 = s → e.2 = v) →
      (entries.foldl (fun g sf s => if s = sf.1 then sf.2 else g s) f) s = v := by
  intro entries
  induction entries with
  | nil => intro f s v h _; simp at h
  | cons e tl ih =>
    intro f s v hmem huniq
    simp only [List.foldl_cons]
    by_cases htl : ∃ e2 ∈ tl, e2.1 = s
    · obtain ⟨e2, he2, hkey⟩ := htl
      have hval : e2.2 = v := huniq e2 (by simp [he2]) hkey
      have hmem2 : (s, v) ∈ tl := by
        have : e2 = (s, v) := by
          rcases e2 with ⟨a, b⟩
          simp at hkey hval
          simp [hkey, hval]
        rwa [this] at he2
      exact ih _ s v hmem2 (fun x hx => huniq x (by simp [hx]))
    · have hnot : ∀ e2 ∈ tl, e2.1 ≠ s := by
        intro e2 he2 hc
        exact htl ⟨e2, he2, hc⟩
      rw [foldl_update_notmem tl _ s hnot]
      have he : e = (s, v) := by
        rcases List.mem_cons.mp hmem with h | h
        · exact h.symm
        · exact absurd rfl (hnot (s, v) h)
      subst he
      simp

theorem huffSymFreqs_shape (B : List Nat) :
    ∀ sf ∈ huffSymFreqs B, sf.2 = B.count sf.1 ∧ sf.1 < 256 ∧ 0 < B.count sf.1 := by
  intro sf hsf
  simp only [huffSymFreqs, histEntries, List.mem_map, List.mem_filter,
    List.mem_range, decide_eq_true_eq] at hsf
  obtain ⟨s, ⟨hs256, hpos⟩, heq⟩ := hsf
  subst heq
  exact ⟨rfl, hs256, hpos⟩

theorem mem_huffSymFreqs (B : List Nat) (b : Nat) (hb : b < 256) (hc : 0 < B.count b) :
    (b, B.count b) ∈ huffSymFreqs B := by
  simp only [huffSymFreqs, histEntries, List.mem_map, List.mem_filter,
    List.mem_range, decide_eq_true_eq]
  exact ⟨b, ⟨hb, hc⟩, rfl⟩

theorem huffSymFreqs_length_le (B : List Nat) : (huffSymFreqs B).length ≤ 256 := by
  simp only [huffSymFreqs, histEntries, List.length_map]
  calc ((List.range 256).filter _).length ≤ (List.range 256).length :=
        List.length_filter_le _ _
    _ = 256 := List.length_range 256

theorem histEntries_congr (f g : Nat → Nat) (h : ∀ s < 256, f s = g s) :
    histEntries f = histEntries g := by
  unfold histEntries
  rw [List.filter_congr (fun s hs => by rw [h s (List.mem_range.mp hs)])]
  exact List.map_congr_left (fun s hs => by
    rw [h s (List.mem_range.mp (List.mem_of_mem_filter hs))])

theorem mem_qSyms_pqInsert (x : HTree × Nat) (q : List (HTree × Nat)) (s : Nat) :
    s ∈ qSyms (pqInsert x q) ↔ s ∈ treeSyms x.1 ∨ s ∈ qSyms q := by
  induction q with
  | nil => simp [pqInsert, qSyms]
  | cons y ys ih =>
    simp only [pqInsert]
    split
    · simp [qSyms]
    · simp only [qSyms, List.map_cons, List.flatten_cons, List.mem_append] at ih ⊢
      rw [ih]
      tauto

theorem buildLoop_syms :
    ∀ (fuel : Nat) (q : List (HTree × Nat)) (t : HTree), buildLoop fuel q = some t →
      ∀ s ∈ qSyms q, s ∈ treeSyms t := by
  intro fuel
  induction fuel with
  | zero =>
    intro q t h s hs
    match q with
    | [] => simp [buildLoop] at h
    | [x] =>
      simp only [buildLoop, Option.some.injEq] at h
      subst h
      simpa [qSyms] using hs
    | a :: b :: rest => simp [buildLoop] at h
  | succ f ih =>
    intro q t h s hs
    match q with
    | [] => simp [buildLoop] at h
    | [x] =>
      simp only [buildLoop, Option.some.injEq] at h
      subst h
      simpa [qSyms] using hs
    | a :: b :: rest =>
      simp only [buildLoop] at h
      refine ih _ t h s ?_
      rw [mem_qSyms_pqInsert]
      simp only [qSyms, List.map_cons, List.flatten_cons, List.mem_append] at hs
      simp only [treeSyms, List.mem_append, qSyms]
      tauto

theorem mem_qSyms_foldl :
    ∀ (ws : List (Nat × Nat)) (q0 : List (HTree × Nat)) (s : Nat),
      s ∈ qSyms (ws.foldl (fun q sf => pqInsert (HTree.leaf sf.1, sf.2) q) q0) ↔
        (∃ sf ∈ ws, s = sf.1) ∨ s ∈ qSyms q0 := by
  intro ws
  induction ws with
  | nil => simp
  | cons e tl ih =>
    intro q0 s
    simp only [List.foldl_cons]
    rw [ih]
    rw [mem_qSyms_pqInsert]
    simp only [treeSyms, List.mem_singleton, List.mem_cons]
    aesop

theorem buildTree_syms (ws : List (Nat × Nat)) (t : HTree) (h : buildTree ws = some t) :
    ∀ sf ∈ ws, sf.1 ∈ treeSyms t := by
  intro sf hsf
  unfold buildTree at h
  refine buildLoop_syms _ _ t h sf.1 ?_
  rw [mem_qSyms_foldl]
  exact Or.inl ⟨sf, hsf, rfl⟩

theorem pqInsert_length (x : HTree × Nat) :
    ∀ q : List (HTree × Nat), (pqInsert x q).length = q.length + 1 := by
  intro q
  induction q with
  | nil => rfl
  | cons y ys ih =>
    simp only [pqInsert]
    split
    · simp
    · simp [ih]

theorem buildLoop_isSome :
    ∀ (fuel : Nat) (q : List (HTree × Nat)), q ≠ [] → q.length ≤ fuel + 1 →
      ∃ t, buildLoop fuel q = some t := by
  intro fuel
  induction fuel with
  | zero =>
    intro q hne hlen
    match q with
    | [] => exact absurd rfl hne
    | [x] => exact ⟨x.1, rfl⟩
    | a :: b :: rest => simp at hlen
  | succ f ih =>
    intro q hne hlen
    match q with
    | [] => exact absurd rfl hne
    | [x] => exact ⟨x.1, rfl⟩
    | a :: b :: rest =>
      simp only [buildLoop]
      refine ih _ ?_ ?_
      · have := pqInsert_length (HTree.node a.1 b.1, a.2 + b.2) rest
        intro hc
        rw [hc] at this
        simp at this
      · have := pqInsert_length (HTree.node a.1 b.1, a.2 + b.2) rest
        simp at hlen
        omega

theorem foldl_pqInsert_length :
    ∀ (ws : List (Nat × Nat)) (q0 : List (HTree × Nat)),
      (ws.foldl (fun q sf => pqInsert (HTree.leaf sf.1, sf.2) q) q0).length
        = q0.length + ws.length := by
  intro ws
  induction ws with
  | nil => simp
  | cons e tl ih =>
    intro q0
    simp only [List.foldl_cons, List.length_cons]
    rw [ih, pqInsert_length]
    omega

theorem buildTree_isSome (ws : List (Nat × Nat)) (hne : ws ≠ []) :
    ∃ t, buildTree ws = some t := by
  unfold buildTree
  have hlen := foldl_pqInsert_length ws []
  refine buildLoop_isSome _ _ ?_ (by omega)
  intro hc
  rw [hc] at hlen
  simp at hlen
  exact hne (List.length_eq_zero.mp hlen.symm)

theorem two_syms_node (t : HTree) (s1 s2 : Nat)
    (h1 : s1 ∈ treeSyms t) (h2 : s2 ∈ treeSyms t) (hne : s1 ≠ s2) :
    ∃ l r, t = .node l r := by
  cases t with
  | leaf s =>
    simp only [treeSyms, List.mem_singleton] at h1 h2
    exact absurd (h1.trans h2.symm) hne
  | node l r => exact ⟨l, r, rfl⟩

theorem codesAux_key :
    ∀ (t : HTree) (pre : List Bool) (s : Nat), s ∈ treeSyms t →
      ∃ c, (s, c) ∈ codesAux t pre := by
  intro t
  induction t with
  | leaf s0 =>
    intro pre s hs
    simp only [treeSyms, List.mem_singleton] at hs
    subst hs
    exact ⟨if pre.isEmpty then [false] else pre, by simp [codesAux]⟩
  | node l r ihl ihr =>
    intro pre s hs
    simp only [treeSyms, List.mem_append] at hs
    rcases hs with hs | hs
    · obtain ⟨c, hc⟩ := ihl (pre ++ [false]) s hs
      exact ⟨c, by simp [codesAux]; exact Or.inl hc⟩
    · obtain ⟨c, hc⟩ := ihr (pre ++ [true]) s hs
      exact ⟨c, by simp [codesAux]; exact Or.inr hc⟩

theorem walk_codesAux :
    ∀ (t : HTree) (pre : List Bool) (s : Nat) (c : List Bool), pre ≠ [] →
      (s, c) ∈ codesAux t pre →
      ∃ suf, c = pre ++ suf ∧ ∀ extra, walk t (suf ++ extra) = some (s, extra) := by
  intro t
  induction t with
  | leaf s0 =>
    intro pre s c hpre hmem
    have hie : pre.isEmpty = false := by
      cases pre
      · exact absurd rfl hpre
      · rfl
    simp only [codesAux, hie, if_false, ite_false, List.mem_singleton,
      Prod.mk.injEq] at hmem
    obtain ⟨rfl, rfl⟩ := hmem
    exact ⟨[], by simp, fun extra => by simp [walk]⟩
  | node l r ihl ihr =>
    intro pre s c hpre hmem
    simp only [codesAux, List.mem_append] at hmem
    rcases hmem with hmem | hmem
    · obtain ⟨suf, hc, hw⟩ := ihl (pre ++ [false]) s c (by simp) hmem
      refine ⟨false :: suf, by simp [hc], fun extra => ?_⟩
      simp only [List.cons_append, walk, if_false, ite_false]
      exact hw extra
    · obtain ⟨suf, hc, hw⟩ := ihr (pre ++ [true]) s c (by simp) hmem
      refine ⟨true :: suf, by simp [hc], fun extra => ?_⟩
      simp only [List.cons_append, walk, if_true, ite_true]
      exact hw extra

theorem walk_code_node (l r : HTree) (s : Nat) (c : List Bool)
    (hmem : (s, c) ∈ codesAux (.node l r) []) :
    ∀ extra, walk (.node l r) (c ++ extra) = some (s, extra) := by
  intro extra
  simp only [codesAux, List.nil_append, List.mem_append] at hmem
  rcases hmem with hmem | hmem
  · obtain ⟨suf, hc, hw⟩ := walk_codesAux l [false] s c (by simp) hmem
    subst hc
    simp only [List.cons_append, List.nil_append, walk, if_false, ite_false]
    exact hw extra
  · obtain ⟨suf, hc, hw⟩ := walk_codesAux r [true] s c (by simp) hmem
    subst hc
    simp only [List.cons_append, List.nil_append, walk, if_true, ite_true]
    exact hw extra

theorem foldl_lookup_stable :
    ∀ (entries : List (Nat × List Bool)) (s : Nat) (acc : List Bool),
      (∀ c, (s, c) ∉ entries) →
      entries.foldl (fun a p => if p.1 = s then p.2 else a) acc = acc := by
  intro entries
  induction entries with
  | nil => intro s acc _; rfl
  | cons p tl ih =>
    intro s acc h
    simp only [List.foldl_cons]
    rw [if_neg, ih s acc (fun c hc => h c (by simp [hc]))]
    intro hp
    exact h p.2 (by simp only [List.mem_cons]; left; rw [← hp])

theorem foldl_lookup_mem :
    ∀ (entries : List (Nat × List Bool)) (s : Nat) (acc : List Bool),
      (∃ c, (s, c) ∈ entries) →
      (s, entries.foldl (fun a p => if p.1 = s then p.2 else a) acc) ∈ entries := by
  intro entries
  induction entries with
  | nil => intro s acc h; simp at h
  | cons p tl ih =>
    intro s acc h
    simp only [List.foldl_cons]
    by_cases htl : ∃ c, (s, c) ∈ tl
    · exact List.mem_cons_of_mem _ (ih s _ htl)
    · have hp : p.1 = s := by
        obtain ⟨c, hc⟩ := h
        rcases List.mem_cons.mp hc with hc | hc
        · rw [← hc]
        · exact absurd ⟨c, hc⟩ htl
      rw [foldl_lookup_stable tl s _ (fun c hc => htl ⟨c, hc⟩), if_pos hp]
      have hep : (s, p.2) = p := by
        rcases p with ⟨a, b⟩
        simp at hp
        simp [hp]
      rw [hep]
      exact List.mem_cons_self p tl

theorem codeOf_walk (t : HTree) (l r : HTree) (ht : t = .node l r) (s : Nat)
    (hs : s ∈ treeSyms t) :
    ∀ extra, walk t (codeOf t s ++ extra) = some (s, extra) := by
  intro extra
  have hkey := codesAux_key t [] s hs
  have hmem := foldl_lookup_mem (codesAux t []) s [] hkey
  subst ht
  exact walk_code_node l r s _ hmem extra

theorem decodeSymbols_leaf (s0 : Nat) :
    ∀ (k : Nat) (bits : List Bool),
      decodeSymbols (.leaf s0) k bits = some (List.replicate k s0) := by
  intro k
  induction k with
  | zero => intro bits; simp [decodeSymbols]
  | succ n ih =>
    intro bits
    simp [decodeSymbols, walk, ih, List.replicate_succ]

theorem decodeSymbols_concat (t : HTree) :
    ∀ (B : List Nat) (pad : List Bool),
      (∀ b ∈ B, ∀ extra, walk t (codeOf t b ++ extra) = some (b, extra)) →
      decodeSymbols t B.length ((B.map (codeOf t)).flatten ++ pad) = some B := by
  intro B
  induction B with
  | nil => intro pad _; simp [decodeSymbols]
  | cons b tl ih =>
    intro pad h
    simp only [List.map_cons, List.flatten_cons, List.length_cons, List.append_assoc]
    simp only [decodeSymbols]
    rw [h b (by simp) ((tl.map (codeOf t)).flatten ++ pad)]
    dsimp only
    rw [ih pad (fun x hx => h x (by simp [hx]))]

theorem bitsToByte_append_false (l : List Bool) :
    bitsToByte (l ++ [false]) = 2 * bitsToByte l := by
  simp [bitsToByte, List.foldl_append]

theorem bitsToByte_append_replicate :
    ∀ (k : Nat) (l : List Bool),
      bitsToByte (l ++ List.replicate k false) = bitsToByte l * 2 ^ k := by
  intro k
  induction k with
  | zero => intro l; simp
  | succ n ih =>
    intro l
    rw [List.replicate_succ', ← List.append_assoc, bitsToByte_append_false, ih]
    rw [Nat.pow_succ]
    ring

theorem byteBits_bitsToByte_eight :
    ∀ (b0 b1 b2 b3 b4 b5 b6 b7 : Bool),
      byteBits (bitsToByte [b0, b1, b2, b3, b4, b5, b6, b7])
        = [b0, b1, b2, b3, b4, b5, b6, b7] := by decide

theorem byteBits_bitsToByte (l : List Bool) (hl : l.length = 8) :
    byteBits (bitsToByte l) = l := by
  rcases l with _ | ⟨b0, _ | ⟨b1, _ | ⟨b2, _ | ⟨b3, _ | ⟨b4, _ | ⟨b5, _ | ⟨b6, _ | ⟨b7, rest⟩⟩⟩⟩⟩⟩⟩⟩ <;>
    simp only [List.length_cons, List.length_nil] at hl
  · omega
  · omega
  · omega
  · omega
  · omega
  · omega
  · omega
  · omega
  · have hr : rest = [] := List.length_eq_zero.mp (by omega)
    subst hr
    exact byteBits_bitsToByte_eight b0 b1 b2 b3 b4 b5 b6 b7

theorem unpack_packBits :
    ∀ (fuel : Nat) (bs : List Bool), bs.length ≤ fuel →
      ((packBits fuel bs).map byteBits).flatten
        = bs ++ List.replicate ((8 - bs.length % 8) % 8) false := by
  intro fuel
  induction fuel with
  | zero =>
    intro bs h
    have : bs = [] := List.length_eq_zero.mp (by omega)
    subst this
    simp [packBits]
  | succ f ih =>
    intro bs h
    match bs with
    | [] => simp [packBits]
    | x :: xs =>
      simp only [packBits]
      split
      · simp only [List.map_cons, List.flatten_cons]
        rw [byteBits_bitsToByte _ (by rw [List.length_take]; omega)]
        rw [ih ((x :: xs).drop 8) (by simp at h ⊢; omega)]
        rw [← List.append_assoc, List.take_append_drop]
        have hmod : ((x :: xs).drop 8).length % 8 = (x :: xs).length % 8 := by
          rw [List.length_drop]
          omega
        rw [hmod]
      · simp only [List.map_cons, List.map_nil, List.flatten_cons, List.flatten_nil,
          List.append_nil]
        have hlen : (x :: xs).length ≤ 7 := by omega
        have hk : bitsToByte (x :: xs) * 2 ^ (8 - (x :: xs).length)
            = bitsToByte ((x :: xs) ++ List.replicate (8 - (x :: xs).length) false) := by
          rw [bitsToByte_append_replicate]
        have hlen8 : ((x :: xs) ++ List.replicate (8 - (x :: xs).length) false).length = 8 := by
          rw [List.length_append, List.length_replicate]
          omega
        rw [hk, byteBits_bitsToByte _ hlen8]
        have hpad : 8 - (x :: xs).length = (8 - (x :: xs).length % 8) % 8 := by
          have h1 : 1 ≤ (x :: xs).length := by simp
          omega
        rw [hpad]

theorem decodeSymbols_length (t : HTree) :
    ∀ (k : Nat) (bits : List Bool) (out : List Nat),
      decodeSymbols t k bits = some out → out.length = k := by
  intro k
  induction k with
  | zero =>
    intro bits out h
    simp only [decodeSymbols, Option.some.injEq] at h
    subst h
    rfl
  | succ n ih =>
    intro bits out h
    simp only [decodeSymbols] at h
    cases hw : walk t bits with
    | none => rw [hw] at h; simp at h
    | some p =>
      obtain ⟨s, bits1⟩ := p
      rw [hw] at h
      dsimp only at h
      cases hd : decodeSymbols t n bits1 with
      | none => rw [hd] at h; simp at h
      | some out1 =>
        rw [hd] at h
        dsimp only at h
        obtain rfl : s :: out1 = out := by simpa using h
        simp [ih bits1 out1 hd]

theorem walk_shrink (t : HTree) :
    ∀ (bits : List Bool) (s : Nat) (bits1 : List Bool), walk t bits = some (s, bits1) →
      bits1.length ≤ bits.length ∧
        ∀ l r, t = .node l r → bits1.length < bits.length := by
  induction t with
  | leaf s0 =>
    intro bits s bits1 h
    simp only [walk, Option.some.injEq, Prod.mk.injEq] at h
    obtain ⟨rfl, rfl⟩ := h
    exact ⟨le_refl _, fun l r hc => by simp at hc⟩
  | node l r ihl ihr =>
    intro bits s bits1 h
    match bits with
    | [] => simp [walk] at h
    | b :: bs =>
      simp only [walk] at h
      split at h
      · have := (ihr bs s bits1 h).1
        exact ⟨by simp; omega, fun _ _ _ => by simp; omega⟩
      · have := (ihl bs s bits1 h).1
        exact ⟨by simp; omega, fun _ _ _ => by simp; omega⟩

theorem decodeSymbols_node_short (l r : HTree) :
    ∀ (k : Nat) (bits : List Bool), bits.length < k →
      decodeSymbols (.node l r) k bits = none := by
  intro k
  induction k with
  | zero => intro bits h; omega
  | succ n ih =>
    intro bits h
    simp only [decodeSymbols]
    cases hw : walk (.node l r) bits with
    | none => rfl
    | some p =>
      obtain ⟨s, bits1⟩ := p
      dsimp only
      have hlt := (walk_shrink _ bits s bits1 hw).2 l r rfl
      rw [ih bits1 (by omega)]

theorem huffSymFreqs_pairwise (B : List Nat) :
    (huffSymFreqs B).Pairwise (fun a b => a.1 ≠ b.1) := by
  unfold huffSymFreqs histEntries
  rw [List.pairwise_map]
  exact ((List.nodup_range 256).filter _).imp (fun h => h)

/-- C1: for every byte buffer B of bytes below 256 whose length fits the u32
header field, Huffman-decoding the file bytes produced by Huffman-encoding B
yields exactly B, the empty buffer and one-symbol buffers included; and for
the ten-byte one-symbol buffer of byte 65 (AAAAAAAAAA) the encoded header
carries symbolCount 1 (the le16 1 field below) and decode reproduces all ten
bytes. -/
theorem huffman_roundtrip :
    (∀ B : List Nat, (∀ b ∈ B, b < 256) → B.length < 4294967296 →
      huffmanDecode (huffmanEncode B) = some B)
    ∧ huffmanEncode (List.replicate 10 65)
      = [72, 85, 70, 49] ++ le32 10 ++ le16 1 ++ (65 :: le32 10) ++ [0, 0]
    ∧ huffmanDecode (huffmanEncode (List.replicate 10 65))
      = some (List.replicate 10 65) := by
  refine ⟨?_, by decide, by decide⟩
  intro B hB hlen
  by_cases hem : B = []
  · subst hem
    decide
  · have hentne : huffSymFreqs B ≠ [] := by
      obtain ⟨b, hb⟩ := List.exists_mem_of_ne_nil B hem
      exact List.ne_nil_of_mem
        (mem_huffSymFreqs B b (hB b hb) (List.count_pos_iff.mpr hb))
    obtain ⟨t, ht⟩ := buildTree_isSome _ hentne
    have hie : B.isEmpty = false := by
      cases B
      · exact absurd rfl hem
      · rfl
    have henc : huffmanEncode B
        = [72, 85, 70, 49] ++ le32 B.length ++ le16 (huffSymFreqs B).length
          ++ (huffSymFreqs B).flatMap (fun sf => sf.1 :: le32 sf.2)
          ++ packBits ((B.map (codeOf t)).flatten).length ((B.map (codeOf t)).flatten) := by
      simp only [huffmanEncode, hie, Bool.false_eq_true, if_false, ite_false, ht]
    rw [henc]
    simp only [List.append_assoc, List.cons_append, List.nil_append]
    simp only [huffmanDecode]
    rw [if_pos (by simp)]
    rw [readLe32_le32, Nat.mod_eq_of_lt hlen]
    dsimp only
    rw [readLe16_le16,
      Nat.mod_eq_of_lt (show (huffSymFreqs B).length < 65536 by
        have := huffSymFreqs_length_le B
        omega)]
    dsimp only
    rw [readPairs_encode _ _ _ (fun e he => by
      have h1 := (huffSymFreqs_shape B e he).1
      have h2 := List.count_le_length e.1 B
      omega)]
    dsimp only
    rw [if_neg (fun hc => hem (List.length_eq_zero.mp hc))]
    have hpt : ∀ s, s < 256 →
        ((huffSymFreqs B).foldl (fun g sf s => if s = sf.1 then sf.2 else g s)
          (fun _ => 0)) s = B.count s := by
      intro s hs
      by_cases hc : 0 < B.count s
      · exact foldl_update_mem _ _ s (B.count s) (mem_huffSymFreqs B s hs hc)
          (fun e he hk => by rw [(huffSymFreqs_shape B e he).1, hk])
      · rw [foldl_update_notmem]
        · omega
        · intro e he hk
          have h3 := (huffSymFreqs_shape B e he).2.2
          rw [hk] at h3
          omega
    have hg : histEntries
        ((huffSymFreqs B).foldl (fun g sf s => if s = sf.1 then sf.2 else g s)
          (fun _ => 0))
        = huffSymFreqs B := by
      rw [histEntries_congr _ (fun s => B.count s) hpt]
      rfl
    rw [hg, ht]
    dsimp only
    rw [unpack_packBits _ _ (le_refl _)]
    match hE : huffSymFreqs B with
    | [] => exact absurd hE hentne
    | [e] =>
      have hte : HTree.leaf e.1 = t := by
        rw [hE] at ht
        have ht2 : buildTree [e] = some (HTree.leaf e.1) := rfl
        injection ht2.symm.trans ht
      have hall : ∀ b ∈ B, b = e.1 := by
        intro b hb
        have hmem := mem_huffSymFreqs B b (hB b hb) (List.count_pos_iff.mpr hb)
        rw [hE] at hmem
        simp only [List.mem_singleton] at hmem
        rw [← hmem]
      have hrep : B = List.replicate B.length e.1 := List.eq_replicate_of_mem hall
      rw [← hte, decodeSymbols_leaf, ← hrep]
    | e1 :: e2 :: tl =>
      have hs1 : e1.1 ∈ treeSyms t := buildTree_syms _ t ht e1 (by rw [hE]; simp)
      have hs2 : e2.1 ∈ treeSyms t := buildTree_syms _ t ht e2 (by rw [hE]; simp)
      have hne12 : e1.1 ≠ e2.1 := by
        have hp := huffSymFreqs_pairwise B
        rw [hE] at hp
        exact (List.pairwise_cons.mp hp).1 e2 (by simp)
      obtain ⟨l, r, htn⟩ := two_syms_node t e1.1 e2.1 hs1 hs2 hne12
      refine decodeSymbols_concat t B _ (fun b hb => codeOf_walk t l r htn b ?_)
      exact buildTree_syms _ t ht (b, B.count b)
        (mem_huffSymFreqs B b (hB b hb) (List.count_pos_iff.mpr hb))

/-- C8: Huffman decode failure safety: a successful symbol decode always
produces exactly the demanded count, never fewer (the model is total, so
unbounded looping and out-of-bounds reads are excluded by construction); a
tree with at least one internal node consumes at least one bit per symbol, so
a bitstream shorter than the demanded symbol count fails; and a header whose
declared size is non-zero but whose histogram holds no symbols is a format
error. -/
theorem huffman_decode_failure_safety :
    (∀ (t : HTree) (k : Nat) (bits : List Bool) (out : List Nat),
      decodeSymbols t k bits = some out → out.length = k)
    ∧ (∀ (l r : HTree) (k : Nat) (bits : List Bool), bits.length < k →
      decodeSymbols (.node l r) k bits = none)
    ∧ (∀ (sz : Nat) (rest : List Nat), sz ≠ 0 → sz < 4294967296 →
      huffmanDecode ([72, 85, 70, 49] ++ le32 sz ++ le16 0 ++ rest) = none) := by
  refine ⟨fun t k bits out h => decodeSymbols_length t k bits out h,
    fun l r k bits h => decodeSymbols_node_short l r k bits h, ?_⟩
  intro sz rest hsz hlt
  simp only [List.append_assoc, List.cons_append, List.nil_append]
  simp only [huffmanDecode]
  rw [if_pos (by simp)]
  rw [readLe32_le32, Nat.mod_eq_of_lt hlt]
  dsimp only
  rw [readLe16_le16]
  dsimp only
  rw [show (0 : Nat) % 65536 = 0 from rfl]
  rw [show readPairs 0 rest (fun _ => 0) = some (fun _ => 0, rest) from rfl]
  dsimp only
  rw [if_neg hsz]
  have hh : histEntries (fun _ => 0) = [] := by decide
  rw [hh]
  rfl

/-- C9 counterexample: a header with symbolCount 1 and originalSize 1 whose
single entry stores frequency 0 makes decode fail with a format error (the
rebuilt histogram is empty), instead of emitting one copy of the stored
symbol. -/
theorem huffman_single_symbol_zero_freq :
    huffmanDecode [72, 85, 70, 49, 1, 0, 0, 0, 1, 0, 65, 0, 0, 0, 0] = none := by decide

theorem histEntries_single (sym fr : Nat) (hsym : sym < 256) (hfr : 0 < fr) :
    histEntries (fun s => if s = sym then fr else 0) = [(sym, fr)] := by
  unfold histEntries
  have hfe : (List.range 256).filter (fun s => 0 < if s = sym then fr else 0)
      = (List.range 256).filter (fun s => s = sym) := by
    refine List.filter_congr ?_
    intro s _
    by_cases hs : s = sym <;> simp [hs, hfr]
  rw [hfe]
  have hfr2 : ∀ n, sym < n → (List.range n).filter (fun s => s = sym) = [sym] := by
    intro n
    induction n with
    | zero => intro h; omega
    | succ m ih =>
      intro h
      rw [List.range_succ, List.filter_append]
      by_cases hm : sym = m
      · subst hm
        rw [List.filter_eq_nil_iff.mpr ?_]
        · simp
        · intro a ha
          simp only [decide_eq_true_eq]
          intro hc
          rw [hc] at ha
          exact absurd (List.mem_range.mp ha) (lt_irrefl _)
      · rw [ih (by omega)]
        have : (List.filter (fun s => decide (s = sym)) [m]) = [] := by
          simp [Ne.symm hm]
        rw [this, List.append_nil]
  rw [hfr2 256 hsym]
  simp [if_pos rfl]

/-- C9 (amended): for every Huffman header with symbolCount 1 whose single
entry stores a symbol byte and a non-zero frequency, and whose originalSize k
is positive, decode succeeds and outputs exactly k copies of the stored symbol
regardless of the payload bytes, including no payload at all (the one-leaf
tree consumes no bits per symbol); the stored frequency must be non-zero, for
a zero frequency empties the rebuilt histogram and decode fails. -/
theorem huffman_single_symbol_decode (sym fr k : Nat) (payload : List Nat)
    (hsym : sym < 256) (hfr : 0 < fr) (hfr2 : fr < 4294967296)
    (hk : 0 < k) (hk2 : k < 4294967296) :
    huffmanDecode ([72, 85, 70, 49] ++ le32 k ++ le16 1 ++ sym :: le32 fr ++ payload)
      = some (List.replicate k sym) := by
  simp only [List.append_assoc, List.cons_append, List.nil_append]
  simp only [huffmanDecode]
  rw [if_pos (by simp)]
  rw [readLe32_le32, Nat.mod_eq_of_lt hk2]
  dsimp only
  rw [readLe16_le16]
  dsimp only
  rw [show (1 : Nat) % 65536 = 1 from rfl]
  simp only [readPairs]
  rw [readLe32_le32, Nat.mod_eq_of_lt hfr2]
  dsimp only
  rw [if_neg (by omega)]
  rw [histEntries_single sym fr hsym hfr]
  rw [show buildTree [(sym, fr)] = some (HTree.leaf sym) from rfl]
  dsimp only
  exact decodeSymbols_leaf sym k _

/-- C9 witness at a concrete header: symbol 65, frequency 10, size 10, no
payload. -/
theorem huffman_single_symbol_decode_witness :
    huffmanDecode ([72, 85, 70, 49] ++ le32 10 ++ le16 1 ++ 65 :: le32 10 ++ [])
      = some (List.replicate 10 65) :=
  huffman_single_symbol_decode 65 10 10 [] (by decide) (by decide) (by decide)
    (by decide) (by decide)

theorem huffmanDecode_some_length (file : List Nat) (out : List Nat)
    (h : huffmanDecode file = some out) :
    huffDeclaredSize file = some out.length := by
  match file with
  | [] => simp [huffmanDecode] at h
  | [a] => simp [huffmanDecode] at h
  | [a, b] => simp [huffmanDecode] at h
  | [a, b, c] => simp [huffmanDecode] at h
  | m1 :: m2 :: m3 :: m4 :: r0 =>
    simp only [huffmanDecode] at h
    simp only [huffDeclaredSize]
    by_cases hm : m1 = 72 ∧ m2 = 85 ∧ m3 = 70 ∧ m4 = 49
    · rw [if_pos hm] at h
      rw [if_pos hm]
      cases h32 : readLe32 r0 with
      | none => rw [h32] at h; simp at h
      | some p =>
        obtain ⟨sz, r1⟩ := p
        rw [h32] at h
        dsimp only at h ⊢
        cases h16 : readLe16 r1 with
        | none => rw [h16] at h; simp at h
        | some p2 =>
          obtain ⟨ns, r2⟩ := p2
          rw [h16] at h
          dsimp only at h
          cases hp : readPairs ns r2 (fun _ => 0) with
          | none => rw [hp] at h; simp at h
          | some p3 =>
            obtain ⟨g, r3⟩ := p3
            rw [hp] at h
            dsimp only at h
            by_cases hz : sz = 0
            · rw [if_pos hz] at h
              obtain rfl : ([] : List Nat) = out := by simpa using h
              simp [hz]
            · rw [if_neg hz] at h
              cases hbt : buildTree (histEntries g) with
              | none => rw [hbt] at h; simp at h
              | some t =>
                rw [hbt] at h
                dsimp only at h
                rw [decodeSymbols_length t sz _ out h]
    · rw [if_neg hm] at h
      simp at h

/-- C7: for every non-empty input of bytes below 256 whose length fits the u32
field, the Huffman tree build succeeds, the distinct symbols are enumerated in
ascending byte-value order, the symbol-frequency list pairs each such symbol
with its count in the input, the encoded file is exactly the HUF1 magic, the
original length as little-endian u32, the symbol count as little-endian u16,
each symbol byte followed by its little-endian u32 frequency, then the
bit-packed codes of the input; and unpacking those payload bytes bit by bit
recovers the concatenated codes followed by the zero padding to a byte
boundary. -/
theorem huffman_header_layout (B : List Nat) (hne : B ≠ []) (hB : ∀ b ∈ B, b < 256) :
    ∃ t, buildTree (huffSymFreqs B) = some t ∧
      List.Pairwise (· < ·) ((List.range 256).filter (fun s => 0 < B.count s)) ∧
      huffSymFreqs B
        = ((List.range 256).filter (fun s => 0 < B.count s)).map (fun s => (s, B.count s)) ∧
      huffmanEncode B
        = [72, 85, 70, 49] ++ le32 B.length ++ le16 (huffSymFreqs B).length
          ++ (huffSymFreqs B).flatMap (fun sf => sf.1 :: le32 sf.2)
          ++ packBits ((B.map (codeOf t)).flatten).length ((B.map (codeOf t)).flatten) ∧
      ((packBits ((B.map (codeOf t)).flatten).length
          ((B.map (codeOf t)).flatten)).map byteBits).flatten
        = (B.map (codeOf t)).flatten
          ++ List.replicate ((8 - ((B.map (codeOf t)).flatten).length % 8) % 8) false := by
  have hentne : huffSymFreqs B ≠ [] := by
    obtain ⟨b, hb⟩ := List.exists_mem_of_ne_nil B hne
    exact List.ne_nil_of_mem
      (mem_huffSymFreqs B b (hB b hb) (List.count_pos_iff.mpr hb))
  obtain ⟨t, ht⟩ := buildTree_isSome _ hentne
  have hie : B.isEmpty = false := by
    cases B
    · exact absurd rfl hne
    · rfl
  refine ⟨t, ht, ?_, rfl, ?_, unpack_packBits _ _ (le_refl _)⟩
  · exact List.Pairwise.sublist (List.filter_sublist _) (List.pairwise_lt_range 256)
  · simp only [huffmanEncode, hie, Bool.false_eq_true, if_false, ite_false, ht]

theorem huffman_header_layout_witness :
    ([65, 66, 66] : List Nat) ≠ [] ∧ (∀ b ∈ ([65, 66, 66] : List Nat), b < 256) ∧
    ∃ t, buildTree (huffSymFreqs [65, 66, 66]) = some t ∧
      List.Pairwise (· < ·)
        ((List.range 256).filter (fun s => 0 < List.count s [65, 66, 66])) ∧
      huffSymFreqs [65, 66, 66]
        = ((List.range 256).filter (fun s => 0 < List.count s [65, 66, 66])).map
            (fun s => (s, List.count s [65, 66, 66])) ∧
      huffmanEncode [65, 66, 66]
        = [72, 85, 70, 49] ++ le32 (List.length [65, 66, 66])
          ++ le16 (huffSymFreqs [65, 66, 66]).length
          ++ (huffSymFreqs [65, 66, 66]).flatMap (fun sf => sf.1 :: le32 sf.2)
          ++ packBits (([65, 66, 66].map (codeOf t)).flatten).length
              (([65, 66, 66].map (codeOf t)).flatten) ∧
      ((packBits (([65, 66, 66].map (codeOf t)).flatten).length
          (([65, 66, 66].map (codeOf t)).flatten)).map byteBits).flatten
        = ([65, 66, 66].map (codeOf t)).flatten
          ++ List.replicate
              ((8 - (([65, 66, 66].map (codeOf t)).flatten).length % 8) % 8) false :=
  ⟨by decide, by decide, huffman_header_layout [65, 66, 66] (by decide) (by decide)⟩

theorem dctCoeff_length (n : Nat) (q : Nat → Int) :
    (((List.range n).map (fun i => int16Bytes (q i))).flatten).length = 2 * n := by
  rw [List.length_flatten, List.map_map]
  have h2 : (List.length ∘ fun i => int16Bytes (q i)) = fun _ => 2 := by
    funext i
    rfl
  rw [h2, List.map_const', List.length_range]
  simp [List.sum_replicate, Nat.mul_comm]

theorem dctFileBytes_length (w h : Nat) (q : Nat → Int) :
    (dctFileBytes w h q).length = 9 + (w + 7) / 8 * ((h + 7) / 8) * 128 := by
  unfold dctFileBytes
  simp only [le16, List.length_append, List.length_cons, List.length_nil]
  rw [dctCoeff_length]
  generalize (w + 7) / 8 * ((h + 7) / 8) = X
  omega

/-- C4 counterexample: the .dct file of a 16x16 single-channel image is 521
bytes, not 530: the header is 9 bytes and the coefficients are 512 bytes, and
9 + 512 = 521 (the 530 of the spec adds 9 to 521 a second time). -/
theorem dct_16x16_size_refuted :
    (dctFileBytes 16 16 (fun _ => 0)).length = 521
    ∧ ¬ (dctFileBytes 16 16 (fun _ => 0)).length = 530 := by
  have h := dctFileBytes_length 16 16 (fun _ => 0)
  constructor
  · rw [h]
  · rw [h]
    decide

/-- C4 (amended): for a 16x16 single-channel input image the transform coder
writes a .dct file of exactly 521 bytes: the 4+2+2+1 = 9 header bytes plus
(16/8)*(16/8)*64*2 = 512 bytes of quantized coefficients, whatever the
coefficient values are. -/
theorem dct_16x16_file_size (q : Nat → Int) :
    (dctFileBytes 16 16 q).length = 521 := by
  rw [dctFileBytes_length]

theorem dctFileBytes_cons (w h : Nat) (q : Nat → Int) :
    dctFileBytes w h q
      = 68 :: 67 :: 84 :: 49 :: w % 256 :: w / 256 % 256 :: h % 256 :: h / 256 % 256 :: 1 ::
        ((List.range ((w + 7) / 8 * ((h + 7) / 8) * 64)).map
          (fun i => int16Bytes (q i))).flatten := by
  unfold dctFileBytes le16
  simp only [List.cons_append, List.nil_append]

set_option maxRecDepth 4000 in
theorem dctDecompressOps_header (a b c d e : Nat) (r : List Nat) :
    dctDecompressOps (68 :: 67 :: 84 :: 49 :: a :: b :: c :: d :: e :: r)
      = (if a + 256 * b = 0 ∨ c + 256 * d = 0 then (-4, [])
         else if e ≠ 1 then (-5, [])
         else if r.length < ((a + 256 * b) + 7) / 8 * (((c + 256 * d) + 7) / 8) * 128
           then (-6, [])
         else (0, [FileOp.openOut, FileOp.writeOut])) := rfl

theorem take_append_ge {α : Type} (l r : List α) (n k : Nat) (hl : l.length = k)
    (h : k ≤ n) :
    List.take n (l ++ r) = l ++ List.take (n - k) r := by
  subst hl
  rw [List.take_append_eq_append_take, List.take_of_length_le h]

theorem readLe32_rest (r : List Nat) (v : Nat) (rest : List Nat)
    (h : readLe32 r = some (v, rest)) : r.length = rest.length + 4 := by
  match r with
  | [] => simp [readLe32] at h
  | [a] => simp [readLe32] at h
  | [a, b] => simp [readLe32] at h
  | [a, b, c] => simp [readLe32] at h
  | a :: b :: c :: d :: r2 =>
    simp only [readLe32, Option.some.injEq, Prod.mk.injEq] at h
    obtain ⟨-, rfl⟩ := h
    simp

theorem readLe32_short (r : List Nat) (h : r.length < 4) : readLe32 r = none := by
  match r with
  | [] => rfl
  | [a] => rfl
  | [a, b] => rfl
  | [a, b, c] => rfl
  | a :: b :: c :: d :: r2 => simp only [List.length_cons] at h; omega

theorem readLe16_short (r : List Nat) (h : r.length < 2) : readLe16 r = none := by
  match r with
  | [] => rfl
  | [a] => rfl
  | a :: b :: r2 => simp only [List.length_cons] at h; omega

theorem readPairs_short :
    ∀ (k : Nat) (rest : List Nat) (f : Nat → Nat), rest.length < 5 * k →
      readPairs k rest f = none := by
  intro k
  induction k with
  | zero => intro rest f h; omega
  | succ m ih =>
    intro rest f h
    match rest with
    | [] => rfl
    | sym :: rest1 =>
      simp only [readPairs]
      cases h32 : readLe32 rest1 with
      | none => rfl
      | some p =>
        obtain ⟨fr, rest2⟩ := p
        dsimp only
        apply ih
        have hr := readLe32_rest rest1 fr rest2 h32
        simp only [List.length_cons] at h
        omega

theorem pairs_length (entries : List (Nat × Nat)) :
    (entries.flatMap (fun sf => sf.1 :: le32 sf.2)).length = 5 * entries.length := by
  induction entries with
  | nil => rfl
  | cons e tl ih =>
    simp only [List.flatMap_cons, List.length_append, ih]
    simp only [List.length_cons, le32, List.length_nil]
    omega

theorem walk_extend (t : HTree) :
    ∀ (bits : List Bool) (s : Nat) (rest : List Bool),
      walk t bits = some (s, rest) → ∀ e, walk t (bits ++ e) = some (s, rest ++ e) := by
  induction t with
  | leaf s0 =>
    intro bits s rest h e
    simp only [walk, Option.some.injEq, Prod.mk.injEq] at h
    obtain ⟨rfl, rfl⟩ := h
    rfl
  | node l r ihl ihr =>
    intro bits s rest h e
    match bits with
    | [] => simp [walk] at h
    | false :: bits1 => exact ihl bits1 s rest h e
    | true :: bits1 => exact ihr bits1 s rest h e

theorem walk_code_prefix_none (t l r : HTree) (htn : t = .node l r) (s : Nat)
    (hs : s ∈ treeSyms t) (m : Nat) (hm : m < (codeOf t s).length) :
    walk t (List.take m (codeOf t s)) = none := by
  cases hw : walk t (List.take m (codeOf t s)) with
  | none => rfl
  | some p =>
    exfalso
    obtain ⟨s2, rest2⟩ := p
    have hx := walk_extend t _ s2 rest2 hw (List.drop m (codeOf t s))
    rw [List.take_append_drop] at hx
    have hy : walk t (codeOf t s) = some (s, []) := by
      have h0 := codeOf_walk t l r htn s hs []
      rwa [List.append_nil] at h0
    rw [hy] at hx
    simp only [Option.some.injEq, Prod.mk.injEq] at hx
    obtain ⟨-, h2⟩ := hx
    have hlen2 := congrArg List.length h2
    simp only [List.length_nil, List.length_append, List.length_drop] at hlen2
    omega

/-- Decoding a demanded count of symbols from any bit prefix of the packed
codes of a buffer (padding included) either fails or yields exactly the
buffer: a cut inside a code leaves the walk at an internal node when the bits
run out. -/
theorem decodeSymbols_take (t l r : HTree) (htn : t = .node l r) :
    ∀ (B : List Nat) (pad : List Bool) (m : Nat),
      (∀ b ∈ B, b ∈ treeSyms t) →
      decodeSymbols t B.length (List.take m ((B.map (codeOf t)).flatten ++ pad)) = none ∨
      decodeSymbols t B.length (List.take m ((B.map (codeOf t)).flatten ++ pad)) = some B := by
  intro B
  induction B with
  | nil =>
    intro pad m _
    right
    simp [decodeSymbols]
  | cons b tl ih =>
    intro pad m hsyms
    have hb : b ∈ treeSyms t := hsyms b (by simp)
    have hwalk := codeOf_walk t l r htn b hb
    simp only [List.map_cons, List.flatten_cons, List.append_assoc]
    by_cases hm : m < (codeOf t b).length
    · left
      rw [List.take_append_of_le_length (by omega)]
      simp only [List.length_cons, decodeSymbols]
      rw [walk_code_prefix_none t l r htn b hb m hm]
    · rw [take_append_ge (codeOf t b) _ m (codeOf t b).length rfl (by omega)]
      simp only [List.length_cons, decodeSymbols]
      rw [hwalk]
      dsimp only
      rcases ih pad (m - (codeOf t b).length) (fun x hx => hsyms x (by simp [hx]))
        with hn | hs
      · left
        rw [hn]
      · right
        rw [hs]

theorem byteBits_flatten_take :
    ∀ (j : Nat) (l : List Nat),
      ((List.take j l).map byteBits).flatten
        = List.take (8 * j) ((l.map byteBits).flatten) := by
  intro j
  induction j with
  | zero => intro l; simp
  | succ n ih =>
    intro l
    match l with
    | [] => simp
    | x :: xs =>
      simp only [List.take_succ_cons, List.map_cons, List.flatten_cons]
      rw [ih xs]
      rw [take_append_ge (byteBits x) _ (8 * (n + 1)) 8 rfl (by omega)]
      have h8 : 8 * (n + 1) - 8 = 8 * n := by omega
      rw [h8]

/-- Decoding any byte prefix of a Huffman encoded file either fails or
returns exactly the original buffer: a cut anywhere in the header fails the
reads, a cut in the histogram entries fails readPairs, and a cut in the
payload leaves fewer bits than the declared symbol count demands on a
multi-symbol tree (a one-leaf tree consumes no bits, so its decode returns
the complete, never partial, original buffer). -/
theorem huffman_prefix_decode (B : List Nat) (hB : ∀ b ∈ B, b < 256)
    (hlen : B.length < 4294967296) (mm : Nat) (out : List Nat)
    (h : huffmanDecode (List.take mm (huffmanEncode B)) = some out) : out = B := by
  by_cases hem : B = []
  · subst hem
    have hencE : huffmanEncode [] = [72, 85, 70, 49, 0, 0, 0, 0, 0, 0] := rfl
    rw [hencE] at h
    by_cases hm10 : 10 ≤ mm
    · rw [List.take_of_length_le (by simp only [List.length_cons, List.length_nil]; omega)]
        at h
      rw [show huffmanDecode [72, 85, 70, 49, 0, 0, 0, 0, 0, 0] = some [] from rfl] at h
      injection h with h2
      exact h2.symm
    · have hdec : ∀ m, m < 10 →
          huffmanDecode (List.take m [72, 85, 70, 49, 0, 0, 0, 0, 0, 0]) = none := by
        decide
      rw [hdec mm (by omega)] at h
      exact Option.noConfusion h
  · have hentne : huffSymFreqs B ≠ [] := by
      obtain ⟨b, hb⟩ := List.exists_mem_of_ne_nil B hem
      exact List.ne_nil_of_mem
        (mem_huffSymFreqs B b (hB b hb) (List.count_pos_iff.mpr hb))
    obtain ⟨t, ht⟩ := buildTree_isSome _ hentne
    have hie : B.isEmpty = false := by
      cases B
      · exact absurd rfl hem
      · rfl
    have henc : huffmanEncode B
        = [72, 85, 70, 49] ++ le32 B.length ++ le16 (huffSymFreqs B).length
          ++ (huffSymFreqs B).flatMap (fun sf => sf.1 :: le32 sf.2)
          ++ packBits ((B.map (codeOf t)).flatten).length ((B.map (codeOf t)).flatten) := by
      simp only [huffmanEncode, hie, Bool.false_eq_true, if_false, ite_false, ht]
    rw [henc] at h
    simp only [List.append_assoc] at h
    by_cases hA : mm < 4
    · rw [List.take_append_of_le_length
        (by simp only [List.length_cons, List.length_nil]; omega)] at h
      have hdec : ∀ m, m < 4 →
          huffmanDecode (List.take m [72, 85, 70, 49]) = none := by decide
      rw [hdec mm (by omega)] at h
      exact Option.noConfusion h
    · rw [take_append_ge [72, 85, 70, 49] _ mm 4 rfl (by omega)] at h
      simp only [List.cons_append, List.nil_append] at h
      simp only [huffmanDecode] at h
      rw [if_pos (by simp)] at h
      by_cases hBnd : mm - 4 < 4
      · rw [readLe32_short _ (by rw [List.length_take]; omega)] at h
        exact Option.noConfusion h
      · rw [take_append_ge (le32 B.length) _ (mm - 4) 4 rfl (by omega)] at h
        rw [readLe32_le32, Nat.mod_eq_of_lt hlen] at h
        dsimp only at h
        by_cases hCnd : mm - 4 - 4 < 2
        · rw [readLe16_short _ (by rw [List.length_take]; omega)] at h
          exact Option.noConfusion h
        · rw [take_append_ge (le16 (huffSymFreqs B).length) _ (mm - 4 - 4) 2 rfl
            (by omega)] at h
          have hC : (huffSymFreqs B).length < 65536 := by
            have := huffSymFreqs_length_le B
            omega
          rw [readLe16_le16, Nat.mod_eq_of_lt hC] at h
          dsimp only at h
          by_cases hDnd : mm - 4 - 4 - 2 < 5 * (huffSymFreqs B).length
          · rw [readPairs_short _ _ _ (by rw [List.length_take]; omega)] at h
            exact Option.noConfusion h
          · rw [take_append_ge ((huffSymFreqs B).flatMap (fun sf => sf.1 :: le32 sf.2))
              _ (mm - 4 - 4 - 2) (5 * (huffSymFreqs B).length) (pairs_length _)
              (by omega)] at h
            rw [readPairs_encode _ _ _ (fun e he => by
              have h1 := (huffSymFreqs_shape B e he).1
              have h2 := List.count_le_length e.1 B
              omega)] at h
            dsimp only at h
            rw [if_neg (fun hc => hem (List.length_eq_zero.mp hc))] at h
            have hpt : ∀ s, s < 256 →
                ((huffSymFreqs B).foldl (fun g sf s => if s = sf.1 then sf.2 else g s)
                  (fun _ => 0)) s = B.count s := by
              intro s hs
              by_cases hc : 0 < B.count s
              · exact foldl_update_mem _ _ s (B.count s) (mem_huffSymFreqs B s hs hc)
                  (fun e he hk => by rw [(huffSymFreqs_shape B e he).1, hk])
              · rw [foldl_update_notmem]
                · omega
                · intro e he hk
                  have h3 := (huffSymFreqs_shape B e he).2.2
                  rw [hk] at h3
                  omega
            have hg : histEntries
                ((huffSymFreqs B).foldl (fun g sf s => if s = sf.1 then sf.2 else g s)
                  (fun _ => 0))
                = huffSymFreqs B := by
              rw [histEntries_congr _ (fun s => B.count s) hpt]
              rfl
            rw [hg, ht] at h
            dsimp only at h
            rw [byteBits_flatten_take] at h
            rw [unpack_packBits _ _ (le_refl _)] at h
            match hE : huffSymFreqs B with
            | [] => exact absurd hE hentne
            | [e] =>
              have hte : HTree.leaf e.1 = t := by
                rw [hE] at ht
                have ht2 : buildTree [e] = some (HTree.leaf e.1) := rfl
                injection ht2.symm.trans ht
              have hall : ∀ b ∈ B, b = e.1 := by
                intro b hb
                have hmem := mem_huffSymFreqs B b (hB b hb) (List.count_pos_iff.mpr hb)
                rw [hE] at hmem
                simp only [List.mem_singleton] at hmem
                rw [← hmem]
              have hrep : B = List.replicate B.length e.1 := List.eq_replicate_of_mem hall
              rw [← hte, decodeSymbols_leaf] at h
              injection h with h2
              rw [← h2]
              exact hrep.symm
            | e1 :: e2 :: tl =>
              have hs1 : e1.1 ∈ treeSyms t := buildTree_syms _ t ht e1 (by rw [hE]; simp)
              have hs2 : e2.1 ∈ treeSyms t := buildTree_syms _ t ht e2 (by rw [hE]; simp)
              have hne12 : e1.1 ≠ e2.1 := by
                have hp := huffSymFreqs_pairwise B
                rw [hE] at hp
                exact (List.pairwise_cons.mp hp).1 e2 (by simp)
              obtain ⟨l, r, htn⟩ := two_syms_node t e1.1 e2.1 hs1 hs2 hne12
              have hsyms : ∀ b ∈ B, b ∈ treeSyms t := fun b hb =>
                buildTree_syms _ t ht (b, B.count b)
                  (mem_huffSymFreqs B b (hB b hb) (List.count_pos_iff.mpr hb))
              rcases decodeSymbols_take t l r htn B
                  (List.replicate ((8 - ((B.map (codeOf t)).flatten).length % 8) % 8) false)
                  (8 * (mm - 4 - 4 - 2 - 5 * (huffSymFreqs B).length)) hsyms
                with hn | hs
              · rw [hn] at h
                exact Option.noConfusion h
              · rw [hs] at h
                injection h with h2
                exact h2.symm

/-- C3 (amended): what truncation can and cannot do to each decoder. For the
entropy coder, a successful decode always returns exactly the header-declared
byte count, and decoding any byte prefix of an encoded stream either fails or
returns exactly the original buffer - no partial output is ever synthesized,
though a prefix cutting only the payload of a one-symbol stream does decode
successfully to the complete buffer. The LZSS decoder applied to any byte
prefix of an encoded stream either fails or returns a prefix of the original
buffer; but it treats an input that ends at a token boundary as complete, so
a truncated stream can decode successfully to partial output, refuting the
claim as stated. For the transform coder the claim holds: the full stream
decodes with error 0 and every strict byte prefix is rejected with a non-zero
error. -/
theorem truncation_safety_amended :
    (∀ (file out : List Nat), huffmanDecode file = some out →
      huffDeclaredSize file = some out.length)
    ∧ (∀ (B : List Nat) (mm : Nat) (out : List Nat), (∀ b ∈ B, b < 256) →
        B.length < 4294967296 →
        huffmanDecode (List.take mm (huffmanEncode B)) = some out → out = B)
    ∧ (∀ (B : List Nat) (mm : Nat),
        lzssDecompressBuffer (List.take mm (lzssCompressBuffer B lzssParams)) = none ∨
        ∃ k, k ≤ B.length ∧
          lzssDecompressBuffer (List.take mm (lzssCompressBuffer B lzssParams))
            = some (List.take k B))
    ∧ (∀ (w h : Nat) (q : Nat → Int), 0 < w → w < 65536 → 0 < h → h < 65536 →
        (dctDecompressOps (dctFileBytes w h q)).1 = 0
        ∧ ∀ mm, mm < (dctFileBytes w h q).length →
            (dctDecompressOps (List.take mm (dctFileBytes w h q))).1 ≠ 0) := by
  refine ⟨fun file out hf => huffmanDecode_some_length file out hf,
    fun B mm out hB hl hf => huffman_prefix_decode B hB hl mm out hf, ?_, ?_⟩
  · intro B mm
    have h := lzss_prefix_loop B B.length 0
      (List.take mm (lzssEncodeLoop B lzssParams 0 B.length)).length mm
      (Nat.zero_le _) (by omega) (le_refl _)
    simpa [lzssDecompressBuffer, lzssCompressBuffer] using h
  · intro w h q hw hw2 hh hh2
    have hw3 : w % 256 + 256 * (w / 256 % 256) = w := by omega
    have hh3 : h % 256 + 256 * (h / 256 % 256) = h := by omega
    constructor
    · rw [dctFileBytes_cons, dctDecompressOps_header, hw3, hh3]
      rw [if_neg (by omega)]
      rw [if_neg (fun hc => hc rfl)]
      rw [if_neg ?_]
      rw [dctCoeff_length]
      revert hw
      generalize (w + 7) / 8 * ((h + 7) / 8) = A
      intro hw
      omega
    · intro mm hmm
      rw [dctFileBytes_cons] at hmm ⊢
      match mm with
      | 0 =>
        rw [List.take_zero]
        rw [show dctDecompressOps ([] : List Nat) = (-1, []) from rfl]
        decide
      | 1 =>
        simp only [List.take_succ_cons, List.take_zero]
        rw [show dctDecompressOps [68] = (-4, []) from rfl]
        decide
      | 2 =>
        simp only [List.take_succ_cons, List.take_zero]
        rw [show dctDecompressOps [68, 67] = (-4, []) from rfl]
        decide
      | 3 =>
        simp only [List.take_succ_cons, List.take_zero]
        rw [show dctDecompressOps [68, 67, 84] = (-4, []) from rfl]
        decide
      | 4 =>
        simp only [List.take_succ_cons, List.take_zero]
        rw [show dctDecompressOps [68, 67, 84, 49] = (-4, []) from rfl]
        decide
      | 5 =>
        simp only [List.take_succ_cons, List.take_zero]
        rw [show dctDecompressOps [68, 67, 84, 49, w % 256] = (-4, []) from rfl]
        decide
      | 6 =>
        simp only [List.take_succ_cons, List.take_zero]
        rw [show dctDecompressOps [68, 67, 84, 49, w % 256, w / 256 % 256]
          = (-4, []) from rfl]
        decide
      | 7 =>
        simp only [List.take_succ_cons, List.take_zero]
        rw [show dctDecompressOps [68, 67, 84, 49, w % 256, w / 256 % 256, h % 256]
          = (-4, []) from rfl]
        decide
      | 8 =>
        simp only [List.take_succ_cons, List.take_zero]
        rw [show dctDecompressOps
            [68, 67, 84, 49, w % 256, w / 256 % 256, h % 256, h / 256 % 256]
          = (if w % 256 + 256 * (w / 256 % 256) = 0 ∨ h % 256 + 256 * (h / 256 % 256) = 0
             then (-4, []) else (-5, [])) from rfl]
        rw [hw3, hh3, if_neg (by omega)]
        decide
      | mm9 + 9 =>
        simp only [List.take_succ_cons]
        rw [dctDecompressOps_header, hw3, hh3]
        rw [if_neg (by omega)]
        rw [if_neg (fun hc => hc rfl)]
        rw [if_pos ?_]
        · decide
        · rw [List.length_take, dctCoeff_length]
          simp only [List.length_cons] at hmm
          rw [dctCoeff_length] at hmm
          revert hmm
          generalize (w + 7) / 8 * ((h + 7) / 8) = A
          intro hmm
          omega

/-- C10: every decompress entry point decodes entirely in memory and touches
the output file only after decode success: for every input file whose decode
errors (bad magic, truncated header or stream, corrupt reference,
inconsistent histogram, short coefficient data), the returned error code is
non-zero and the entry point performs no output-file operation at all, for
the Huffman, LZSS and transform decoders alike. -/
theorem decompress_no_output_on_error (file : List Nat) :
    ((huffmanDecompressOps file).1 ≠ 0 → (huffmanDecompressOps file).2 = [])
    ∧ ((lzssDecompressOps file).1 ≠ 0 → (lzssDecompressOps file).2 = [])
    ∧ ((dctDecompressOps file).1 ≠ 0 → (dctDecompressOps file).2 = []) := by
  refine ⟨?_, ?_, ?_⟩
  · unfold huffmanDecompressOps
    cases huffmanDecode file with
    | none => intro _; rfl
    | some out => intro hcode; exact absurd rfl hcode
  · unfold lzssDecompressOps
    cases lzssDecompressBuffer file with
    | none => intro _; rfl
    | some out => intro hcode; exact absurd rfl hcode
  · unfold dctDecompressOps
    repeat' split
    all_goals intro hcode
    all_goals first | rfl | exact absurd rfl hcode

end CompressionLib
